import Mathlib

/-!
Verification of the segregated free-list allocator in
`src/malloclab-handout/mm_segregated.c`.

The embedding works at the block level.  A C heap is, by construction of the
code, a contiguous sequence of blocks bounded by a prologue (block pointer at
byte offset 8 from the start of the region obtained from `mem_sbrk`, size
tag 16, allocated) and an epilogue tag (size 0, allocated, located at `eptr`).
Every header/footer pair is written together (`set_size`, `set_alloc`,
`set_free` all update both tags), so a block is faithfully represented by a
single record carrying its size tag, its allocation bit and its two free-list
link fields.  Link fields in the C code hold 32-bit self-relative offsets
(`SET_PREV_FREE(bp, p)` stores `p - bp`, offset `0` meaning `LIST_END`); under
the bijection `off <-> bp + off` a field is represented as `Option Nat`: the
absolute address of the linked block, `none` for offset 0 / `LIST_END`.
Sizes are stored through 4-byte tags (`PUT` of an `unsigned int`), so every
store truncates modulo `2^32`; `size_t` arithmetic in the code wraps modulo
`2^64`.  Both reductions appear explicitly below.

Addresses are byte offsets from the start of the heap region: the prologue
block pointer is at 8, the first real block pointer is at 24, and block `i`
starts at `24 +` the sum of the sizes of the blocks before it, exactly the
`NEXT_BLKP` arithmetic.  The `mem_sbrk` growth primitive is out of scope for
the specification, so each operation that may extend the heap takes a boolean
oracle saying whether the growth call succeeds; on success the region grows
by exactly the requested amount.

A null pointer is address 0.  C operations applied to an address that is not
a current block pointer have undefined behaviour; the model makes them
no-ops, and every theorem below only concerns calls on genuine blocks.
-/

namespace MMSeg

/-- Basic constants from mm_segregated.c: WSIZE, DSIZE, MIN_SIZE, NUM_LISTS,
CHUNKSIZE (`1<<8`). -/
def WSIZE : Nat := 4

def DSIZE : Nat := 8

def MIN_SIZE : Nat := 24

def NUM_LISTS : Nat := 20

def CHUNKSIZE : Nat := 256

/-- One heap block: the size tag (total block size in bytes, including the
16 bytes of overhead), the allocation bit, and the two intrusive free-list
link fields (absolute address, `none` = `LIST_END`). -/
structure Block where
  size : Nat
  alloc : Bool
  prevF : Option Nat
  nextF : Option Nat
  deriving Repr, DecidableEq

/-- Allocator state: the blocks strictly between prologue and epilogue in
address order, the `free_lists` root array (length `NUM_LISTS`), the stored
epilogue pointer `eptr`, and the total number of bytes obtained from the
growth primitive (`mem_heap_hi` is `hi - 1`). -/
structure Heap where
  blocks : List Block
  freeLists : List (Option Nat)
  eptr : Nat
  hi : Nat
  deriving Repr, DecidableEq

/-- Address of the first real block pointer: heap start 0, prologue bp at 8,
prologue size 16. -/
def BASE : Nat := 24

/-- Sum of the size tags of a list of blocks. -/
def sumSizes (bs : List Block) : Nat := (bs.map Block.size).sum

/-- Index of the block whose block pointer is the address `a`, scanning from
current address `cur`; this is the inverse of the `NEXT_BLKP` address
arithmetic. -/
def findIdx : List Block → Nat → Nat → Option Nat
  | [], _, _ => none
  | b :: bs, cur, a =>
      if cur = a then some 0 else (findIdx bs (cur + b.size) a).map (· + 1)

/-- The block stored at address `a`, if `a` is a current block pointer. -/
def blockAt (h : Heap) (a : Nat) : Option Block :=
  match findIdx h.blocks BASE a with
  | none => none
  | some i => h.blocks[i]?

/-- Replace the block at list index `i` by `f` of it. -/
def modifyIdx : List Block → Nat → (Block → Block) → List Block
  | [], _, _ => []
  | b :: bs, 0, f => f b :: bs
  | b :: bs, n + 1, f => b :: modifyIdx bs n f

/-- Apply `f` to the block whose block pointer is address `a` (no-op when `a`
is not a block pointer, where the C code would write wild memory). -/
def modifyAt (h : Heap) (a : Nat) (f : Block → Block) : Heap :=
  match findIdx h.blocks BASE a with
  | none => h
  | some i => { h with blocks := modifyIdx h.blocks i f }

/-- `size_t` subtraction `a - b` (wrap modulo `2^64`). -/
def usub64 (a b : Nat) : Nat := (a + (2 ^ 64 - b % 2 ^ 64)) % 2 ^ 64

/-- align_size (mm_segregated.c:346): requests of at most `DSIZE` bytes get
`MIN_SIZE`; otherwise round `size + 2*DSIZE + (DSIZE-1)` down to a multiple
of `DSIZE` (the sum is `size_t` arithmetic, hence the `% 2^64`). -/
def align_size (size : Nat) : Nat :=
  if size ≤ DSIZE then MIN_SIZE
  else DSIZE * ((size + 2 * DSIZE + (DSIZE - 1)) % 2 ^ 64 / DSIZE)

/-- Loop of get_list (mm_segregated.c:385): shift `size` right until it is
0 or the index reaches `NUM_LISTS - 1`.  The loop guard `list < NUM_LISTS-1`
is represented by the countdown `left = (NUM_LISTS - 1) - list`, which makes
the recursion structural. -/
def getListAux : Nat → Nat → Nat → Nat
  | 0, _, list => list
  | _ + 1, 0, list => list
  | left + 1, size + 1, list => getListAux left ((size + 1) / 2) (list + 1)

/-- get_list (mm_segregated.c:385): bucket index of a block size. -/
def get_list (size : Nat) : Nat := getListAux (NUM_LISTS - 1) size 0

/-- Value stored by `SET_PREV_FREE`/`SET_NEXT_FREE` at block `bp` pointing to
`target`: the code stores the offset `target - bp`, and offset 0 reads back
as `LIST_END`. -/
def linkVal (bp target : Nat) : Option Nat :=
  if target = bp then none else some target

/-- set_size (mm_segregated.c:360): stamp a new size tag with allocation
bit 0 in header and footer; the 4-byte tag truncates modulo `2^32`. -/
def set_size (h : Heap) (a : Nat) (asize : Nat) : Heap :=
  modifyAt h a fun b => { b with size := asize % 2 ^ 32, alloc := false }

/-- set_alloc (mm_segregated.c:368): set the allocation bit in both tags. -/
def set_alloc (h : Heap) (a : Nat) : Heap :=
  modifyAt h a fun b => { b with alloc := true }

/-- set_free (mm_segregated.c:376): clear the allocation bit in both tags. -/
def set_free (h : Heap) (a : Nat) : Heap :=
  modifyAt h a fun b => { b with alloc := false }

/-- Write the prev link field of the block at address `a`. -/
def setPrevOf (h : Heap) (a : Nat) (v : Option Nat) : Heap :=
  modifyAt h a fun b => { b with prevF := v }

/-- Write the next link field of the block at address `a`. -/
def setNextOf (h : Heap) (a : Nat) (v : Option Nat) : Heap :=
  modifyAt h a fun b => { b with nextF := v }

/-- Update `free_lists[list]`. -/
def setRoot (h : Heap) (list : Nat) (v : Option Nat) : Heap :=
  { h with freeLists := h.freeLists.set list v }

/-- delete_block (mm_segregated.c:435): unlink `bp` from its bucket,
with the four structural cases of the C code. -/
def delete_block (h : Heap) (bp : Nat) : Heap :=
  match blockAt h bp with
  | none => h
  | some b =>
    let list := get_list b.size
    match b.prevF, b.nextF with
    | none, none => setRoot h list none
    | none, some nx => setRoot (setPrevOf h nx none) list (some nx)
    | some pv, none => setNextOf h pv none
    | some pv, some nx =>
        setPrevOf (setNextOf h pv (linkVal pv nx)) nx (linkVal nx pv)

/-- add_block (mm_segregated.c:467): push `bp` on the head of the bucket of
its size. -/
def add_block (h : Heap) (bp : Nat) : Heap :=
  match blockAt h bp with
  | none => h
  | some b =>
    let list := get_list b.size
    match h.freeLists.getD list none with
    | some root =>
        let h1 := setPrevOf h root (linkVal root bp)
        let h2 := setNextOf h1 bp (linkVal bp root)
        let h3 := setPrevOf h2 bp (linkVal bp bp)
        setRoot h3 list (some bp)
    | none =>
        setRoot (setNextOf (setPrevOf h bp (linkVal bp bp)) bp (linkVal bp bp))
          list (some bp)

end MMSeg

namespace MMSeg

instance : Inhabited Block := ⟨⟨0, false, none, none⟩⟩

/-- The block at list index `i` (the all-zero block when out of range;
every use below is guarded by a `findIdx` result, which is in range). -/
def getBlk (bs : List Block) (i : Nat) : Block := bs.getD i default

/-- Replace the `k` blocks starting at index `i` by the blocks `repl`:
the block-level effect of restamping size tags so that one region is
re-divided (used by `split` and `coalesce`). -/
def splice (bs : List Block) (i : Nat) (repl : List Block) (k : Nat) :
    List Block :=
  bs.take i ++ repl ++ bs.drop (i + k)

/-- split (mm_segregated.c:320).  If the block at `bp` exceeds `asize` by at
least `MIN_SIZE`, unlink it, restamp its front to `asize`, stamp the tail as
a free remainder and insert the remainder; otherwise just unlink it.  The
C `set_size` calls only rewrite the 4-byte tags, so the front keeps its
header-side link field and the remainder inherits the old footer-side link
field; both values are dead (overwritten by `add_block` before any read). -/
def split (h : Heap) (bp asize : Nat) : Heap × Nat :=
  match findIdx h.blocks BASE bp with
  | none => (h, bp)
  | some i =>
    let b := getBlk h.blocks i
    if asize + MIN_SIZE ≤ b.size then
      let h1 := delete_block h bp
      let front : Block := ⟨asize % 2 ^ 32, false, none, b.nextF⟩
      let rem : Block := ⟨(b.size - asize) % 2 ^ 32, false, b.prevF, none⟩
      let h2 := { h1 with blocks := splice h1.blocks i [front, rem] 1 }
      let h3 := add_block h2 (bp + asize)
      (h3, bp)
    else
      (delete_block h bp, bp)

/-- Inner loop of search_list (mm_segregated.c:304): walk one bucket through
the `GET_NEXT_FREE` links, returning the first block whose size is at least
`asize`.  The C loop terminates only on well-formed (finite, acyclic) lists;
the model carries fuel and returns `none` when it runs out. -/
def searchInner (h : Heap) (asize : Nat) : Option Nat → Nat → Option Nat
  | none, _ => none
  | some _, 0 => none
  | some bp, fuel + 1 =>
      match blockAt h bp with
      | none => none
      | some b =>
          if asize ≤ b.size then some bp else searchInner h asize b.nextF fuel

/-- Outer loop of search_list (mm_segregated.c:303): scan buckets while
`list < NUM_LISTS + 1`, reloading `bp = free_lists[list++]` after each
exhausted bucket.  The returned list records the index of every read of the
`free_lists` array, in order; a read past index `NUM_LISTS - 1` falls outside
the array (the model gives it value `none`; the C code reads adjacent
memory, and the fetched value is never used because the loop then exits). -/
def searchLoop (h : Heap) (asize fuel : Nat) :
    Nat → Nat → Option Nat → List Nat → Option Nat × Heap × List Nat
  | 0, _, _, reads => (none, h, reads)
  | left + 1, list, bp, reads =>
    match searchInner h asize bp fuel with
    | some fnd =>
        let p := split h fnd asize
        (some p.2, p.1, reads)
    | none =>
        searchLoop h asize fuel left (list + 1)
          (match h.freeLists[list]? with | some v => v | none => none)
          (reads ++ [list])

/-- search_list (mm_segregated.c:297): start at the bucket of `asize`; the
initial `free_lists[get_list(asize)]` read is recorded first.  The guard
`list < NUM_LISTS + 1` of the outer loop is represented by the countdown
`left = (NUM_LISTS + 1) - list`. -/
def search_list (h : Heap) (asize fuel : Nat) :
    Option Nat × Heap × List Nat :=
  let list := get_list asize
  searchLoop h asize fuel (NUM_LISTS + 1 - list) list
    (h.freeLists.getD list none) [list]

/-- SPACE_LEFT (mm_segregated.c:107): `HDRP(eptr)` is the footer tag of the
last block before the epilogue (the prologue footer when no block exists),
so this is the last block's size when it is free, else 0. -/
def spaceLeft (h : Heap) : Nat :=
  match h.blocks.getLast? with
  | none => 0
  | some b => if b.alloc then 0 else b.size

/-- coalesce (mm_segregated.c:490): boundary-tag coalescing with the four
cases of the C code.  `PREV_BLKP`/`NEXT_BLKP` address the physically
adjacent blocks; the prologue (before index 0) and the epilogue (after the
last block) are allocated sentinels.  The merged block's link fields are the
bytes left at its header/footer link slots; they are dead values, rewritten
by the immediate `add_block`. -/
def coalesce (h : Heap) (bp : Nat) : Heap × Nat :=
  match findIdx h.blocks BASE bp with
  | none => (h, bp)
  | some i =>
    let b := getBlk h.blocks i
    let prevB : Block :=
      if i = 0 then ⟨16, true, none, none⟩ else getBlk h.blocks (i - 1)
    let nextB : Block :=
      if i + 1 = h.blocks.length then ⟨0, true, none, none⟩
      else getBlk h.blocks (i + 1)
    let prevAddr := bp - prevB.size
    let nextAddr := bp + b.size
    if prevB.alloc ∧ nextB.alloc then
      (add_block h bp, bp)
    else if prevB.alloc ∧ ¬nextB.alloc then
      let h1 := delete_block h nextAddr
      let merged : Block :=
        ⟨(b.size + nextB.size) % 2 ^ 32, false, nextB.prevF, b.nextF⟩
      let h2 := { h1 with blocks := splice h1.blocks i [merged] 2 }
      (add_block h2 bp, bp)
    else if ¬prevB.alloc ∧ nextB.alloc then
      let h1 := delete_block h prevAddr
      let merged : Block :=
        ⟨(prevB.size + b.size) % 2 ^ 32, false, b.prevF, prevB.nextF⟩
      let h2 := { h1 with blocks := splice h1.blocks (i - 1) [merged] 2 }
      (add_block h2 prevAddr, prevAddr)
    else
      let h1 := delete_block (delete_block h nextAddr) prevAddr
      let merged : Block :=
        ⟨(b.size + prevB.size + nextB.size) % 2 ^ 32, false,
          nextB.prevF, prevB.nextF⟩
      let h2 := { h1 with blocks := splice h1.blocks (i - 1) [merged] 3 }
      (add_block h2 prevAddr, prevAddr)

/-- extend_heap (mm_segregated.c:403): grow by `asize` minus the free space
already at the heap end (`size_t` subtraction), floored at `CHUNKSIZE`;
stamp the new space as one free block (the old epilogue tag becomes its
header), advance `eptr`, coalesce with a free predecessor, split.  The
growth primitive is out of scope; the boolean oracle `ok` decides whether
`mem_sbrk` succeeds. -/
def extend_heap (h : Heap) (asize : Nat) (ok : Bool) : Option (Heap × Nat) :=
  let sl := spaceLeft h
  let sz0 := usub64 asize sl
  let sz := if sz0 < CHUNKSIZE then CHUNKSIZE else sz0
  if ok then
    let bp := BASE + sumSizes h.blocks
    let h1 : Heap :=
      { blocks := h.blocks ++ [⟨sz % 2 ^ 32, false, none, none⟩],
        freeLists := h.freeLists,
        eptr := h.eptr + sz % 2 ^ 32,
        hi := h.hi + sz }
    let p := coalesce h1 bp
    some (split p.1 p.2 asize)
  else none

/-- malloc (mm_segregated.c:169) on an initialized heap: size 0 returns
null; otherwise adjust the size, search the free lists, extend the heap on a
miss, mark the chosen block allocated.  Fuel `blocks.length + 1` covers
every walk of a well-formed free list. -/
def malloc_model (h : Heap) (size : Nat) (ok : Bool) : Option Nat × Heap :=
  if size = 0 then (none, h)
  else
    let asize := align_size size
    let s := search_list h asize (h.blocks.length + 1)
    match s.1 with
    | some bp => (some bp, set_alloc s.2.1 bp)
    | none =>
        match extend_heap h asize ok with
        | none => (none, h)
        | some p => (some p.2, set_alloc p.1 p.2)

/-- free (mm_segregated.c:200) on an initialized heap: null is a no-op;
otherwise clear the allocation bit and coalesce immediately. -/
def free_model (h : Heap) (bp : Nat) : Heap :=
  if bp = 0 then h
  else (coalesce (set_free h bp) bp).1

/-- realloc (mm_segregated.c:230).  The third component logs every
`memcpy(dst, src, n)` the code performs, as `(dst, src, n)` triples (the
model does not track payload bytes; the log exposes exactly which copies the
code issues).  On the fallback path the code passes a failed (null) malloc
result straight to `memcpy`; that call is logged with destination 0. -/
def realloc_model (h : Heap) (ptr size : Nat) (ok : Bool) :
    Option Nat × Heap × List (Nat × Nat × Nat) :=
  if size = 0 then (none, free_model h ptr, [])
  else if ptr = 0 then
    let m := malloc_model h size ok
    (m.1, m.2, [])
  else
    match findIdx h.blocks BASE ptr with
    | none => (none, h, [])
    | some i =>
      let oldsize := (getBlk h.blocks i).size
      let newsize := align_size size
      if newsize ≤ oldsize then
        let h1 := set_free h ptr
        let h2 := add_block h1 ptr
        let p := split h2 ptr newsize
        (some p.2, set_alloc p.1 p.2, [])
      else
        let prevB : Block :=
          if i = 0 then ⟨16, true, none, none⟩
          else getBlk h.blocks (i - 1)
        let nextB : Block :=
          if i + 1 = h.blocks.length then ⟨0, true, none, none⟩
          else getBlk h.blocks (i + 1)
        let diff := newsize - oldsize
        if (¬prevB.alloc ∧ diff ≤ prevB.size) ∨
           (¬nextB.alloc ∧ diff ≤ nextB.size) ∨
           (¬nextB.alloc ∧ ¬prevB.alloc ∧
             diff ≤ prevB.size + nextB.size) then
          let c := coalesce h ptr
          let copies := if c.2 ≠ ptr then [(c.2, ptr, oldsize)] else []
          let p := split c.1 c.2 newsize
          (some p.2, set_alloc p.1 p.2, copies)
        else
          let m := malloc_model h newsize ok
          match m.1 with
          | some np => (some np, free_model m.2 ptr, [(np, ptr, oldsize)])
          | none => (none, free_model m.2 ptr, [(0, ptr, oldsize)])

/-- calloc (mm_segregated.c:216): `asize = nmemb*size` in wrapping `size_t`
arithmetic, then `malloc(asize)`, then `memset(bp, 0, asize)` with no check
of `bp`.  The last two components are the pointer and length arguments the
code hands to `memset` (the model does not track payload bytes). -/
def calloc_model (h : Heap) (nmemb size : Nat) (ok : Bool) :
    Option Nat × Heap × Option Nat × Nat :=
  let asize := nmemb * size % 2 ^ 64
  let m := malloc_model h asize ok
  (m.1, m.2, m.1, asize)

/-- Heap produced by mm_init (mm_segregated.c:142): prologue and epilogue
only, all free-list roots null, `eptr` at byte 16, 20 bytes obtained. -/
def initHeap : Heap :=
  { blocks := [], freeLists := List.replicate NUM_LISTS none,
    eptr := 16, hi := 20 }

/-- One public allocator call, with its `mem_sbrk` oracle where relevant. -/
inductive Op where
  | malloc (size : Nat) (ok : Bool)
  | free (bp : Nat)
  | realloc (bp size : Nat) (ok : Bool)
  | calloc (nmemb size : Nat) (ok : Bool)

/-- Result and state after one call. -/
def runOp (h : Heap) : Op → Option Nat × Heap
  | .malloc s ok => malloc_model h s ok
  | .free a => (none, free_model h a)
  | .realloc a s ok =>
      let r := realloc_model h a s ok
      (r.1, r.2.1)
  | .calloc n s ok =>
      let r := calloc_model h n s ok
      (r.1, r.2.1)

/-- Run a call sequence, collecting the returned addresses. -/
def runTrace (h : Heap) : List Op → Heap × List (Option Nat)
  | [] => (h, [])
  | op :: ops =>
      let r := runOp h op
      let t := runTrace r.2 ops
      (t.1, r.1 :: t.2)

end MMSeg

namespace MMSeg

/-- The prologue block as laid out by mm_init: size tag 16, allocated, both
link words 0. -/
def prologueB : Block := ⟨16, true, none, none⟩

/-- Blocks paired with their block-pointer addresses, starting at `a`. -/
def withAddrs : List Block → Nat → List (Nat × Block)
  | [], _ => []
  | b :: bs, a => (a, b) :: withAddrs bs (a + b.size)

/-- The sequence of blocks visited by the checker loop
`for (bp = heap_listp; GET_SIZE(HDRP(bp)) > 0; bp = NEXT_BLKP(bp))`:
the prologue (bp 8) followed by every real block; the epilogue's size-0 tag
stops the loop. -/
def scanBlocks (h : Heap) : List (Nat × Block) :=
  (8, prologueB) :: withAddrs h.blocks BASE

/-- Lookup used for the checker's `GET_PREV_FREE(GET_NEXT_FREE(bp))`-style
dereferences, which may hit any address: the prologue, a real block, or (in
a corrupt heap) a non-block address, where the C code reads wild memory;
the model gives such reads the value `LIST_END`. -/
def blockAtChk (h : Heap) (a : Nat) : Option Block :=
  if a = 8 then some prologueB else blockAt h a

/-- `GET_PREV_FREE` at an arbitrary address. -/
def readPrevF (h : Heap) (a : Nat) : Option Nat :=
  match blockAtChk h a with
  | some b => b.prevF
  | none => none

/-- `GET_NEXT_FREE` at an arbitrary address. -/
def readNextF (h : Heap) (a : Nat) : Option Nat :=
  match blockAtChk h a with
  | some b => b.nextF
  | none => none

/-- State threaded through the checker loop of mm_checkheap
(mm_segregated.c:544): the error-flag word, the per-bucket head and tail
counters, and the consecutive-free-block token. -/
structure ChkSt where
  flags : Nat
  numHead : List Nat
  numTail : List Nat
  freeToken : Nat
  deriving Repr, DecidableEq

/-- One iteration of the mm_checkheap block loop (mm_segregated.c:585-621),
for the block `b` at block pointer `a`.  The header/footer-mismatch test
(bit 16) compares the two tag copies, which the block-level model collapses
into one, so it can never fire here; every other test is represented.  The
`bp < low` half of the bounds test cannot fire (bp is at least 8). -/
def chkStep (h : Heap) (st : ChkSt) (a : Nat) (b : Block) : ChkSt :=
  let f1 := if ¬ b.size % DSIZE = 0 then st.flags ||| 1 else st.flags
  let f2 := if ¬ a % DSIZE = 0 then f1 ||| 64 else f1
  let f3 :=
    if (a : Int) + (b.size : Int) - (DSIZE : Int) > (h.hi : Int) - 1 then
      f2 ||| 32
    else f2
  let f4 :=
    if a = 8 ∧ ¬ (b.size = 2 * DSIZE ∧ b.alloc = true) then f3 ||| 256
    else f3
  if b.alloc = false then
    let token := st.freeToken + 1
    let f5 := if 1 < token then f4 ||| 128 else f4
    let list := get_list b.size
    let tailStep : Nat × List Nat :=
      match b.nextF with
      | none =>
          (if 1 < st.numTail.getD list 0 then f5 ||| 2 else f5,
           st.numTail.set list (st.numTail.getD list 0 + 1))
      | some nx =>
          (if ¬ readPrevF h nx = some a then f5 ||| 4 else f5, st.numTail)
    let headStep : Nat × List Nat :=
      match b.prevF with
      | none =>
          (if 1 < st.numHead.getD list 0 then tailStep.1 ||| 8 else tailStep.1,
           st.numHead.set list (st.numHead.getD list 0 + 1))
      | some pv =>
          (if ¬ readNextF h pv = some a then tailStep.1 ||| 4 else tailStep.1,
           st.numHead)
    { flags := headStep.1, numHead := headStep.2, numTail := tailStep.2,
      freeToken := token }
  else
    { st with flags := f4, freeToken := 0 }

/-- Error-flag word computed by mm_checkheap with `ERROR_CHECK` on.  The
pre-loop epilogue test (bit 512) reads the tag at `high - 3`; in the model
that tag's content is the epilogue pair (0, allocated) by construction, so
of its three disjuncts only the location test `high - 3 != eptr` is
representable.  A nonzero result makes mm_checkheap print a full report and
call `exit(0)`. -/
def checkFlags (h : Heap) : Nat :=
  let f0 : Nat := if ¬ h.hi - 4 = h.eptr then 512 else 0
  let st0 : ChkSt :=
    { flags := f0, numHead := List.replicate NUM_LISTS 0,
      numTail := List.replicate NUM_LISTS 0, freeToken := 0 }
  ((scanBlocks h).foldl (fun st ab => chkStep h st ab.1 ab.2) st0).flags

/-- Number of free blocks in the heap whose bucket is `i` and whose forward
link marks the end of a list (a "tail" in the checker's sense). -/
def tailsInBucket (h : Heap) (i : Nat) : Nat :=
  (h.blocks.filter fun b =>
    b.alloc = false ∧ b.nextF = none ∧ get_list b.size = i).length

/-- Number of free blocks in the heap whose bucket is `i` and whose back
link marks the end of a list (a "head" in the checker's sense). -/
def headsInBucket (h : Heap) (i : Nat) : Nat :=
  (h.blocks.filter fun b =>
    b.alloc = false ∧ b.prevF = none ∧ get_list b.size = i).length

end MMSeg

namespace MMSeg

/-! Infrastructure: how the primitive operations act on the size/allocation
content of the heap.  `sizesOf` is the list of size tags, which fixes the
block addresses; `tags` adds the allocation bits.  Free-list manipulation
(`add_block`, `delete_block`, the link setters and `setRoot`) never changes
either. -/

/-- Size tag and allocation bit of a block. -/
def tagOf (b : Block) : Nat × Bool := (b.size, b.alloc)

/-- The size/allocation content of the heap, in address order. -/
def tags (h : Heap) : List (Nat × Bool) := h.blocks.map tagOf

/-- The size tags of the heap, in address order. -/
def sizesOf (bs : List Block) : List Nat := bs.map Block.size

theorem modifyIdx_map {α : Type} (g : Block → α) (f : Block → Block)
    (hf : ∀ b, g (f b) = g b) (bs : List Block) (i : Nat) :
    (modifyIdx bs i f).map g = bs.map g := by
  induction bs generalizing i with
  | nil => rfl
  | cons b bs ih =>
      cases i with
      | zero => simp [modifyIdx, hf]
      | succ n => simp [modifyIdx, ih]

theorem tags_modifyAt (h : Heap) (a : Nat) (f : Block → Block)
    (hf : ∀ b, tagOf (f b) = tagOf b) :
    tags (modifyAt h a f) = tags h := by
  unfold modifyAt
  cases hidx : findIdx h.blocks BASE a with
  | none => rfl
  | some i => simpa [tags] using modifyIdx_map tagOf f hf h.blocks i

theorem tags_setPrevOf (h : Heap) (a : Nat) (v : Option Nat) :
    tags (setPrevOf h a v) = tags h := by
  apply tags_modifyAt; intro b; rfl

theorem tags_setNextOf (h : Heap) (a : Nat) (v : Option Nat) :
    tags (setNextOf h a v) = tags h := by
  apply tags_modifyAt; intro b; rfl

theorem tags_setRoot (h : Heap) (list : Nat) (v : Option Nat) :
    tags (setRoot h list v) = tags h := rfl

theorem tags_delete_block (h : Heap) (a : Nat) :
    tags (delete_block h a) = tags h := by
  unfold delete_block
  cases hb : blockAt h a with
  | none => rfl
  | some b =>
      rcases hp : b.prevF with _ | pv <;> rcases hn : b.nextF with _ | nx <;>
        simp [hp, hn, tags_setRoot, tags_setPrevOf, tags_setNextOf]

theorem tags_add_block (h : Heap) (a : Nat) :
    tags (add_block h a) = tags h := by
  unfold add_block
  cases hb : blockAt h a with
  | none => rfl
  | some b =>
      rcases hr : h.freeLists.getD (get_list b.size) none with _ | root <;>
        simp only [List.getD_eq_getElem?_getD] at hr <;>
        simp [hr, tags_setRoot, tags_setPrevOf, tags_setNextOf]

theorem sizesOf_eq_of_tags {h h' : Heap} (e : tags h' = tags h) :
    sizesOf h'.blocks = sizesOf h.blocks := by
  have : (tags h').map Prod.fst = (tags h).map Prod.fst := by rw [e]
  simpa [tags, sizesOf, Function.comp, tagOf] using this

theorem findIdx_eq_of_sizes {bs bs' : List Block}
    (e : sizesOf bs' = sizesOf bs) (c a : Nat) :
    findIdx bs' c a = findIdx bs c a := by
  induction bs generalizing bs' c with
  | nil =>
      cases bs' with
      | nil => rfl
      | cons x xs => simp [sizesOf] at e
  | cons b bs ih =>
      cases bs' with
      | nil => simp [sizesOf] at e
      | cons x xs =>
          simp only [sizesOf, List.map_cons, List.cons_eq_cons] at e
          simp [findIdx, e.1, ih (by simpa [sizesOf] using e.2)]

theorem sizesOf_set_alloc (h : Heap) (a : Nat) :
    sizesOf (set_alloc h a).blocks = sizesOf h.blocks := by
  unfold set_alloc modifyAt
  cases hidx : findIdx h.blocks BASE a with
  | none => rfl
  | some i =>
      simpa [sizesOf] using
        modifyIdx_map Block.size (fun b => { b with alloc := true })
          (fun b => rfl) h.blocks i

theorem sizesOf_set_free (h : Heap) (a : Nat) :
    sizesOf (set_free h a).blocks = sizesOf h.blocks := by
  unfold set_free modifyAt
  cases hidx : findIdx h.blocks BASE a with
  | none => rfl
  | some i =>
      simpa [sizesOf] using
        modifyIdx_map Block.size (fun b => { b with alloc := false })
          (fun b => rfl) h.blocks i

end MMSeg

namespace MMSeg

theorem findIdx_cons_inv {b : Block} {bs : List Block} {c a i : Nat}
    (hf : findIdx (b :: bs) c a = some i) :
    (c = a ∧ i = 0) ∨
      ∃ j, ¬ c = a ∧ findIdx bs (c + b.size) a = some j ∧ i = j + 1 := by
  simp only [findIdx] at hf
  by_cases hc : c = a
  · rw [if_pos hc] at hf
    refine Or.inl ⟨hc, ?_⟩
    injection hf with h
    omega
  · rw [if_neg hc, Option.map_eq_some'] at hf
    obtain ⟨j, hj, hji⟩ := hf
    exact Or.inr ⟨j, hc, hj, hji.symm⟩

theorem findIdx_lt_length {bs : List Block} {c a i : Nat}
    (hf : findIdx bs c a = some i) : i < bs.length := by
  induction bs generalizing c i with
  | nil => simp [findIdx] at hf
  | cons b bs ih =>
      rcases findIdx_cons_inv hf with ⟨_, rfl⟩ | ⟨j, _, hj, rfl⟩
      · simp
      · have := ih hj
        simp only [List.length_cons]
        omega

theorem findIdx_ge {bs : List Block} {c a i : Nat}
    (hf : findIdx bs c a = some i) : c ≤ a := by
  induction bs generalizing c i with
  | nil => simp [findIdx] at hf
  | cons b bs ih =>
      rcases findIdx_cons_inv hf with ⟨rfl, _⟩ | ⟨j, _, hj, _⟩
      · exact le_rfl
      · have := ih hj
        omega

theorem findIdx_addr {bs : List Block} {c a i : Nat}
    (hf : findIdx bs c a = some i) :
    a = c + sumSizes (bs.take i) := by
  induction bs generalizing c i with
  | nil => simp [findIdx] at hf
  | cons b bs ih =>
      rcases findIdx_cons_inv hf with ⟨rfl, rfl⟩ | ⟨j, _, hj, rfl⟩
      · simp [sumSizes]
      · have := ih hj
        simp only [List.take_succ_cons, sumSizes, List.map_cons, List.sum_cons]
        simp only [sumSizes] at this
        omega

theorem findIdx_splice {bs : List Block} {c a i : Nat} (x : Block)
    (xs : List Block) (k : Nat)
    (hf : findIdx bs c a = some i) :
    findIdx (splice bs i (x :: xs) k) c a = some i := by
  induction bs generalizing c i with
  | nil => simp [findIdx] at hf
  | cons b bs ih =>
      rcases findIdx_cons_inv hf with ⟨rfl, rfl⟩ | ⟨j, hc, hj, rfl⟩
      · simp [splice, findIdx]
      · have := ih hj
        simp only [splice] at this ⊢
        have hk : j + 1 + k = (j + k) + 1 := by omega
        simp only [List.take_succ_cons, hk, List.drop_succ_cons,
          List.cons_append, findIdx, hc, if_false, List.append_eq]
        rw [this]
        rfl

theorem splice_getBlk {bs : List Block} {i : Nat} (hle : i ≤ bs.length)
    (x : Block) (xs : List Block) (k : Nat) :
    getBlk (splice bs i (x :: xs) k) i = x := by
  unfold getBlk splice
  have hlen : (bs.take i).length = i := by
    simp [List.length_take]
    omega
  rw [List.getD_eq_getElem?_getD, List.append_assoc,
      List.getElem?_append_right (le_of_eq hlen)]
  simp [hlen]

theorem splice_getBlk_next {bs : List Block} {i : Nat} (hle : i ≤ bs.length)
    (x y : Block) (xs : List Block) (k : Nat) :
    getBlk (splice bs i (x :: y :: xs) k) (i + 1) = y := by
  unfold getBlk splice
  have hlen : (bs.take i).length = i := by
    simp [List.length_take]
    omega
  rw [List.getD_eq_getElem?_getD, List.append_assoc,
      List.getElem?_append_right (by omega : (bs.take i).length ≤ i + 1)]
  simp [hlen]

theorem getBlk_eq_of_tags {h h2 : Heap} (e : tags h2 = tags h) (i : Nat) :
    (getBlk h2.blocks i).size = (getBlk h.blocks i).size ∧
    (getBlk h2.blocks i).alloc = (getBlk h.blocks i).alloc := by
  have h1 : (tags h2).getD i (tagOf default) = (tags h).getD i (tagOf default) := by
    rw [e]
  simp only [tags, List.getD_eq_getElem?_getD, List.getElem?_map] at h1
  unfold getBlk
  rcases h2e : h2.blocks[i]? with _ | b <;> rcases h3 : h.blocks[i]? with _ | b2 <;>
    simp [h2e, h3, tagOf, Prod.ext_iff] at h1 <;>
    simp [List.getD_eq_getElem?_getD, h2e, h3, h1]

theorem findIdx_append_last {bs : List Block} (hpos : ∀ b ∈ bs, 0 < b.size)
    (x : Block) (xs : List Block) (c : Nat) :
    findIdx (bs ++ x :: xs) c (c + sumSizes bs) = some bs.length := by
  induction bs generalizing c with
  | nil => simp [findIdx, sumSizes]
  | cons b bs ih =>
      have hb : 0 < b.size := hpos b (by simp)
      have hsum : sumSizes (b :: bs) = b.size + sumSizes bs := by
        simp [sumSizes]
      have hne : ¬ c = c + sumSizes (b :: bs) := by omega
      simp only [List.cons_append, findIdx, hne, if_false, List.append_eq]
      have harg : c + sumSizes (b :: bs) = (c + b.size) + sumSizes bs := by omega
      rw [harg, ih (fun b2 hb2 => hpos b2 (by simp [hb2]))]
      rfl

end MMSeg

namespace MMSeg

/-! Concrete states and call sequences used to settle individual claims. -/

/-- A consistent heap with one free 24-byte block (bucket 5, sole member),
then an allocated 32-byte block, then an allocated 24-byte block.
Block pointers are 24, 48 and 80. -/
def c2Heap : Heap :=
  { blocks := [⟨24, false, none, none⟩, ⟨32, true, none, none⟩,
               ⟨24, true, none, none⟩],
    freeLists := (List.replicate NUM_LISTS (none : Option Nat)).set 5 (some 24),
    eptr := 96, hi := 100 }

/-- A heap whose bucket 5 contains two list tails and two list heads: two
free 24-byte blocks, each with both link words 0, separated by an allocated
block.  Block pointers are 24, 48 and 72. -/
def c7Heap : Heap :=
  { blocks := [⟨24, false, none, none⟩, ⟨24, true, none, none⟩,
               ⟨24, false, none, none⟩],
    freeLists := (List.replicate NUM_LISTS (none : Option Nat)).set 5 (some 24),
    eptr := 88, hi := 92 }

/-- Call sequence from a freshly initialized heap: a small allocation, its
free, then a request of `2^64 - 1` bytes whose size rounding wraps. -/
def c1Trace : List Op :=
  [.malloc 8 true, .free 24, .malloc (2 ^ 64 - 1) true]

/-- C8: boundary no-ops — on an initialized heap, `allocate(0)` returns null
and leaves the whole allocator state (blocks, bucket table, `eptr`, heap
extent) unchanged, and `free(null)` leaves the whole state unchanged. -/
theorem c8_boundary_noops (h : Heap) (ok : Bool) :
    malloc_model h 0 ok = (none, h) ∧ free_model h 0 = h := by
  constructor
  · simp [malloc_model]
  · simp [free_model]

/-- C4: when the underlying allocation fails, `calloc` does not return null
cleanly: it hands the null malloc result, together with the positive byte
count 1, straight to `memset` (`return memset(bp, c, asize)` with
`bp = NULL`), i.e. it zero-fills through the failed result. -/
theorem c4_calloc_null_to_memset :
    calloc_model initHeap 1 1 false = (none, initHeap, none, 1) := by
  rfl

/-- C5: `calloc(2^63 + 1, 2)` overflows the `size_t` product (which wraps
to 2), yet the code returns a non-null block (address 24) after a successful
heap extension, instead of failing: the multiplication is unchecked. -/
theorem c5_calloc_overflow_not_null :
    2 ^ 64 ≤ (2 ^ 63 + 1) * 2 ∧
    (calloc_model initHeap (2 ^ 63 + 1) 2 true).1 = some 24 := by
  constructor
  · norm_num
  · rfl

/-- C2: on `c2Heap`, `realloc(48, 34)` takes the in-place growth path that
absorbs the free 24-byte predecessor, and the single payload move it
performs is `memcpy(24, 48, 32)` — a copy whose destination range
`[24, 56)` and source range `[48, 80)` overlap (`dst < src < dst + len`),
passed to `memcpy`, which C forbids for overlapping ranges. -/
theorem c2_realloc_overlapping_memcpy :
    (realloc_model c2Heap 48 34 true).1 = some 24 ∧
    (realloc_model c2Heap 48 34 true).2.2 = [(24, 48, 32)] ∧
    24 < 48 ∧ 48 < 24 + 32 := by
  refine ⟨rfl, rfl, by norm_num, by norm_num⟩

/-- C7: `c7Heap` has two list tails and two list heads in bucket 5, yet the
checker's error-flag word is 0 — the `num_tail[list_num]++ > 1` /
`num_head[list_num]++ > 1` tests compare the counter value before the
increment, so the second tail (head) in a bucket goes unreported, contrary
to the code's own flag documentation ("more than one tail detected"). -/
theorem c7_checker_misses_double_tail :
    tailsInBucket c7Heap 5 = 2 ∧ headsInBucket c7Heap 5 = 2 ∧
    checkFlags c7Heap = 0 := by
  refine ⟨rfl, rfl, rfl⟩

/-- C1 counterexample: after `allocate(8)` and its free, the call
`allocate(2^64 - 1)` returns the non-null address 24, but the block at 24
has total size 16 and so a payload region of 0 bytes — far less than the
requested byte count: the `size + 2*DSIZE + (DSIZE-1)` rounding wrapped to
an adjusted size of 16. -/
theorem c1_counterexample :
    (runTrace initHeap c1Trace).2 = [some 24, none, some 24] ∧
    blockAt (runTrace initHeap c1Trace).1 24 = some ⟨16, true, none, none⟩ ∧
    (16 : Nat) - 16 < 2 ^ 64 - 1 := by
  refine ⟨rfl, rfl, by norm_num⟩

/-- C10 counterexample: searching an empty free-list table (the state right
after init) for an adjusted size of 24 reads the bucket-head array at index
20 = `NUM_LISTS`, one past its last valid index, so the out-of-bounds
(`none`) branch of the array access is reached. -/
theorem c10_counterexample :
    20 ∈ (search_list initHeap (align_size 8) 1).2.2 ∧
    initHeap.freeLists[20]? = none := by
  exact ⟨by decide, rfl⟩

end MMSeg

namespace MMSeg

/-! The bucket index is always at most `NUM_LISTS - 1`, and bounds on the
indices at which the search loop reads the bucket-head array. -/

theorem getListAux_le (left : Nat) : ∀ size list : Nat,
    getListAux left size list ≤ list + left := by
  induction left with
  | zero => intro size list; simp [getListAux]
  | succ left ih =>
      intro size list
      cases size with
      | zero => simp [getListAux]
      | succ n =>
          calc getListAux (left + 1) (n + 1) list
              = getListAux left ((n + 1) / 2) (list + 1) := rfl
            _ ≤ (list + 1) + left := ih _ _
            _ = list + (left + 1) := by omega

theorem get_list_le (size : Nat) : get_list size ≤ NUM_LISTS - 1 :=
  getListAux_le (NUM_LISTS - 1) size 0

theorem searchLoop_reads_le (h : Heap) (asize fuel : Nat) (left : Nat) :
    ∀ list bp reads,
      ∀ r ∈ (searchLoop h asize fuel left list bp reads).2.2,
        r ∈ reads ∨ (list ≤ r ∧ r < list + left) := by
  induction left with
  | zero => intro list bp reads r hr; exact Or.inl hr
  | succ left ih =>
      intro list bp reads r hr
      simp only [searchLoop] at hr
      cases hinner : searchInner h asize bp fuel with
      | some fnd => rw [hinner] at hr; exact Or.inl hr
      | none =>
          rw [hinner] at hr
          rcases ih (list + 1) _ (reads ++ [list]) r hr with hmem | hrange
          · rcases List.mem_append.1 hmem with hm | hm
            · exact Or.inl hm
            · simp at hm
              subst hm
              exact Or.inr ⟨le_rfl, by omega⟩
          · exact Or.inr ⟨by omega, by omega⟩

theorem searchLoop_zero_none (h : Heap) (asize fuel list : Nat)
    (bp : Option Nat) (reads : List Nat) :
    (searchLoop h asize fuel 0 list bp reads).1 = none := rfl

theorem searchLoop_reads_of_found (h : Heap) (asize fuel : Nat)
    (left : Nat) : ∀ list bp reads,
      (searchLoop h asize fuel left list bp reads).1.isSome = true →
      ∀ r ∈ (searchLoop h asize fuel left list bp reads).2.2,
        r ∈ reads ∨ (list ≤ r ∧ r + 1 < list + left) := by
  induction left with
  | zero => intro list bp reads hs; simp [searchLoop] at hs
  | succ left ih =>
      intro list bp reads hs r hr
      simp only [searchLoop] at hr hs
      cases hinner : searchInner h asize bp fuel with
      | some fnd => rw [hinner] at hr; exact Or.inl hr
      | none =>
          rw [hinner] at hr hs
          have hleft : 0 < left := by
            by_contra hc
            have h0 : left = 0 := by omega
            rw [h0, searchLoop_zero_none] at hs
            simp at hs
          rcases ih (list + 1) _ (reads ++ [list]) hs r hr with hmem | hrange
          · rcases List.mem_append.1 hmem with hm | hm
            · exact Or.inl hm
            · simp at hm
              subst hm
              exact Or.inr ⟨le_rfl, by omega⟩
          · exact Or.inr ⟨by omega, by omega⟩

/-- C10, amended: the free-list search reads the bucket-head array at
indices between the starting bucket and `NUM_LISTS` inclusive — on the
exhaustion path the final `free_lists[list++]` read falls on index
`NUM_LISTS = 20`, one slot past the array, though the fetched value is
never used as a block pointer; whenever the search returns a block, every
read index is within `0 .. NUM_LISTS - 1`. -/
theorem c10_amended (h : Heap) (asize fuel : Nat) :
    (∀ r ∈ (search_list h asize fuel).2.2, r ≤ NUM_LISTS) ∧
    ((search_list h asize fuel).1.isSome = true →
      ∀ r ∈ (search_list h asize fuel).2.2, r < NUM_LISTS) := by
  have hL : get_list asize ≤ NUM_LISTS - 1 := get_list_le asize
  constructor
  · intro r hr
    rcases searchLoop_reads_le h asize fuel _ _ _ _ r hr with hm | hrange
    · simp at hm
      subst hm
      simp only [NUM_LISTS] at hL ⊢
      omega
    · simp only [NUM_LISTS] at hL hrange ⊢
      omega
  · intro hs r hr
    rcases searchLoop_reads_of_found h asize fuel _ _ _ _ hs r hr with hm | hrange
    · simp at hm
      subst hm
      simp only [NUM_LISTS] at hL ⊢
      omega
    · simp only [NUM_LISTS] at hL hrange ⊢
      omega

/-- A consistent heap holding a single free 24-byte block at address 24,
the sole member of bucket 5. -/
def okHeap : Heap :=
  { blocks := [⟨24, false, none, none⟩],
    freeLists := (List.replicate NUM_LISTS (none : Option Nat)).set 5 (some 24),
    eptr := 40, hi := 44 }

/-- On `okHeap` a search for 24 bytes succeeds, and its one array read
(index 5) is in bounds, instantiating the found-case of the amended C10. -/
theorem c10_amended_witness : 5 < NUM_LISTS :=
  (c10_amended okHeap 24 2).2 (by decide) 5 (by decide)

end MMSeg

namespace MMSeg

/-! Transport lemmas: operations that only touch link fields or the root
array leave the size tags (hence all block addresses) and allocation bits
unchanged; `set_alloc`/`set_free` leave the size tags unchanged. -/

theorem findIdx_eq_of_tags {h h2 : Heap} (e : tags h2 = tags h) (c a : Nat) :
    findIdx h2.blocks c a = findIdx h.blocks c a :=
  findIdx_eq_of_sizes (sizesOf_eq_of_tags e) c a

theorem getBlk_size_eq_of_sizes {bs bs2 : List Block}
    (e : sizesOf bs2 = sizesOf bs) (i : Nat) :
    (getBlk bs2 i).size = (getBlk bs i).size := by
  have h1 : (sizesOf bs2).getD i (default : Block).size
      = (sizesOf bs).getD i (default : Block).size := by
    rw [e]
  simp only [sizesOf, List.getD_eq_getElem?_getD, List.getElem?_map] at h1
  unfold getBlk
  rcases h2 : bs2[i]? with _ | b <;> rcases h3 : bs[i]? with _ | b2 <;>
    simp [h2, h3] at h1 <;>
    simp [List.getD_eq_getElem?_getD, h2, h3, h1]

theorem pos_of_sizesOf {bs bs2 : List Block} (e : sizesOf bs2 = sizesOf bs)
    (hpos : ∀ b ∈ bs, 0 < b.size) : ∀ b ∈ bs2, 0 < b.size := by
  intro b hb
  have : b.size ∈ sizesOf bs := by
    rw [← e]
    exact List.mem_map_of_mem Block.size hb
  obtain ⟨b2, hb2, he⟩ := List.mem_map.1 this
  rw [← he]
  exact hpos b2 hb2

theorem blockAt_inv {h : Heap} {a : Nat} {b : Block}
    (hb : blockAt h a = some b) :
    ∃ i, findIdx h.blocks BASE a = some i ∧ getBlk h.blocks i = b := by
  unfold blockAt at hb
  rcases hf : findIdx h.blocks BASE a with _ | i <;> rw [hf] at hb
  · simp at hb
  · have hb2 : h.blocks[i]? = some b := hb
    refine ⟨i, rfl, ?_⟩
    unfold getBlk
    rw [List.getD_eq_getElem?_getD, hb2]
    rfl

theorem split_snd (h : Heap) (bp asize : Nat) : (split h bp asize).2 = bp := by
  unfold split
  rcases findIdx h.blocks BASE bp with _ | i
  · rfl
  · by_cases hc : asize + MIN_SIZE ≤ (getBlk h.blocks i).size <;> simp [hc]

theorem split_spec (h : Heap) (bp asize : Nat) {i : Nat}
    (hfind : findIdx h.blocks BASE bp = some i)
    (hle : asize ≤ (getBlk h.blocks i).size)
    (h32 : asize < 2 ^ 32) :
    findIdx (split h bp asize).1.blocks BASE bp = some i ∧
    asize ≤ (getBlk (split h bp asize).1.blocks i).size := by
  unfold split
  rw [hfind]
  by_cases hc : asize + MIN_SIZE ≤ (getBlk h.blocks i).size
  · simp only [hc, if_true]
    have e1 : sizesOf (delete_block h bp).blocks = sizesOf h.blocks :=
      sizesOf_eq_of_tags (tags_delete_block h bp)
    have hf1 : findIdx (delete_block h bp).blocks BASE bp = some i := by
      rw [findIdx_eq_of_sizes e1, hfind]
    have hlen1 : i < (delete_block h bp).blocks.length := findIdx_lt_length hf1
    have hf2 : findIdx (splice (delete_block h bp).blocks i
        [⟨asize % 2 ^ 32, false, none, (getBlk h.blocks i).nextF⟩,
         ⟨((getBlk h.blocks i).size - asize) % 2 ^ 32, false,
           (getBlk h.blocks i).prevF, none⟩] 1) BASE bp = some i :=
      findIdx_splice _ _ 1 hf1
    have hgd2 : getBlk (splice (delete_block h bp).blocks i
        [⟨asize % 2 ^ 32, false, none, (getBlk h.blocks i).nextF⟩,
         ⟨((getBlk h.blocks i).size - asize) % 2 ^ 32, false,
           (getBlk h.blocks i).prevF, none⟩] 1) i =
        ⟨asize % 2 ^ 32, false, none, (getBlk h.blocks i).nextF⟩ :=
      splice_getBlk (Nat.le_of_lt hlen1) _ _ 1
    constructor
    · rw [findIdx_eq_of_tags (tags_add_block _ _)]
      exact hf2
    · rw [getBlk_size_eq_of_sizes (sizesOf_eq_of_tags (tags_add_block _ _))]
      rw [hgd2]
      simp only []
      rw [Nat.mod_eq_of_lt h32]
  · simp only [hc, if_false]
    have e1 : sizesOf (delete_block h bp).blocks = sizesOf h.blocks :=
      sizesOf_eq_of_tags (tags_delete_block h bp)
    constructor
    · rw [findIdx_eq_of_sizes e1, hfind]
    · rw [getBlk_size_eq_of_sizes e1]
      exact hle

end MMSeg

namespace MMSeg

theorem searchInner_spec (h : Heap) (asize : Nat) :
    ∀ (fuel : Nat) (obp : Option Nat) {bp : Nat},
      searchInner h asize obp fuel = some bp →
      ∃ i, findIdx h.blocks BASE bp = some i ∧
        asize ≤ (getBlk h.blocks i).size := by
  intro fuel
  induction fuel with
  | zero =>
      intro obp bp hs
      cases obp <;> simp [searchInner] at hs
  | succ fuel ih =>
      intro obp bp hs
      cases obp with
      | none => simp [searchInner] at hs
      | some bp0 =>
          simp only [searchInner] at hs
          cases hb : blockAt h bp0 with
          | none => rw [hb] at hs; simp at hs
          | some b =>
              rw [hb] at hs
              have hs2 : (if asize ≤ b.size then some bp0
                  else searchInner h asize b.nextF fuel) = some bp := hs
              by_cases hsz : asize ≤ b.size
              · rw [if_pos hsz] at hs2
                injection hs2 with hbp
                subst hbp
                obtain ⟨i, hfi, hgb⟩ := blockAt_inv hb
                exact ⟨i, hfi, by rw [hgb]; exact hsz⟩
              · rw [if_neg hsz] at hs2
                exact ih b.nextF hs2

theorem searchLoop_spec (h : Heap) (asize fuel : Nat) (h32 : asize < 2 ^ 32)
    (left : Nat) : ∀ (list : Nat) (bp : Option Nat) (reads : List Nat)
      {r : Nat},
      (searchLoop h asize fuel left list bp reads).1 = some r →
      ∃ i, findIdx (searchLoop h asize fuel left list bp reads).2.1.blocks
          BASE r = some i ∧
        asize ≤ (getBlk (searchLoop h asize fuel left list bp reads).2.1.blocks
          i).size := by
  induction left with
  | zero => intro list bp reads r hr; simp [searchLoop] at hr
  | succ left ih =>
      intro list bp reads r hr
      cases hinner : searchInner h asize bp fuel with
      | some fnd =>
          simp only [searchLoop, hinner] at hr ⊢
          obtain ⟨i, hfi, hsz⟩ := searchInner_spec h asize fuel bp hinner
          have hsp := split_spec h fnd asize hfi hsz h32
          have hr2 : r = fnd := by
            rw [split_snd] at hr
            exact (Option.some_inj.mp hr).symm
          subst hr2
          exact ⟨i, hsp.1, hsp.2⟩
      | none =>
          simp only [searchLoop, hinner] at hr ⊢
          exact ih (list + 1) _ (reads ++ [list]) hr

end MMSeg

namespace MMSeg

theorem sumSizes_append (xs ys : List Block) :
    sumSizes (xs ++ ys) = sumSizes xs + sumSizes ys := by
  simp [sumSizes]

theorem sumSizes_eq_of_sizesOf {bs bs2 : List Block}
    (e : sizesOf bs2 = sizesOf bs) : sumSizes bs2 = sumSizes bs := by
  unfold sumSizes
  unfold sizesOf at e
  rw [e]

theorem getBlk_append_last (bs : List Block) (x : Block) (xs : List Block) :
    getBlk (bs ++ x :: xs) bs.length = x := by
  unfold getBlk
  rw [List.getD_eq_getElem?_getD, List.getElem?_append_right le_rfl]
  simp

theorem getBlk_append_left {bs : List Block} {i : Nat} (hlt : i < bs.length)
    (ys : List Block) : getBlk (bs ++ ys) i = getBlk bs i := by
  unfold getBlk
  rw [List.getD_eq_getElem?_getD, List.getD_eq_getElem?_getD,
      List.getElem?_append_left hlt]

theorem align_size_spec (size : Nat) (h0 : 0 < size) (hub : size ≤ 2 ^ 31) :
    size + 16 ≤ align_size size ∧ 24 ≤ align_size size ∧
    align_size size ≤ 2 ^ 31 + 24 ∧ align_size size % 8 = 0 := by
  have h31 : (2 : Nat) ^ 31 = 2147483648 := by norm_num
  simp only [align_size, DSIZE, MIN_SIZE]
  by_cases hc : size ≤ 8
  · rw [if_pos hc]
    omega
  · rw [if_neg hc]
    have hm : (size + 2 * 8 + (8 - 1)) % 2 ^ 64 = size + 23 := by
      have h64 : (2 : Nat) ^ 64 = 18446744073709551616 := by norm_num
      rw [h64]
      omega
    rw [hm]
    omega

theorem usub64_of_le {a b : Nat} (hba : b ≤ a) (ha : a < 2 ^ 64) :
    usub64 a b = a - b := by
  unfold usub64
  rw [Nat.mod_eq_of_lt (lt_of_le_of_lt hba ha)]
  have he : a + (2 ^ 64 - b) = 2 ^ 64 + (a - b) := by omega
  rw [he, Nat.add_mod_left, Nat.mod_eq_of_lt (by omega)]

theorem usub64_of_gt {a b : Nat} (hab : a < b) (hb : b < 2 ^ 64) :
    usub64 a b = 2 ^ 64 - (b - a) := by
  unfold usub64
  rw [Nat.mod_eq_of_lt hb]
  have he : a + (2 ^ 64 - b) = 2 ^ 64 - (b - a) := by omega
  rw [he, Nat.mod_eq_of_lt (by omega)]

end MMSeg

namespace MMSeg

theorem coalesce_case1 {h : Heap} {bp i : Nat}
    (hf : findIdx h.blocks BASE bp = some i)
    (hprev : (if i = 0 then (⟨16, true, none, none⟩ : Block)
      else getBlk h.blocks (i - 1)).alloc = true)
    (hnext : (if i + 1 = h.blocks.length then (⟨0, true, none, none⟩ : Block)
      else getBlk h.blocks (i + 1)).alloc = true) :
    coalesce h bp = (add_block h bp, bp) := by
  unfold coalesce
  rw [hf]
  simp only [hprev, hnext, if_pos, and_self, if_true]

end MMSeg

namespace MMSeg

theorem coalesce_case3 {h : Heap} {bp i : Nat}
    (hf : findIdx h.blocks BASE bp = some i) (hi0 : ¬ i = 0)
    (hprev : (getBlk h.blocks (i - 1)).alloc = false)
    (hnext : (if i + 1 = h.blocks.length then (⟨0, true, none, none⟩ : Block)
      else getBlk h.blocks (i + 1)).alloc = true) :
    coalesce h bp =
      (add_block
        { delete_block h (bp - (getBlk h.blocks (i - 1)).size) with
            blocks := splice
              (delete_block h (bp - (getBlk h.blocks (i - 1)).size)).blocks
              (i - 1)
              [⟨((getBlk h.blocks (i - 1)).size + (getBlk h.blocks i).size)
                  % 2 ^ 32,
                false, (getBlk h.blocks i).prevF,
                (getBlk h.blocks (i - 1)).nextF⟩] 2 }
        (bp - (getBlk h.blocks (i - 1)).size),
       bp - (getBlk h.blocks (i - 1)).size) := by
  unfold coalesce
  rw [hf]
  simp only [hi0, if_false, hprev, hnext]
  simp

end MMSeg

namespace MMSeg

theorem extend_arith0 (A : Nat) (h24 : 24 ≤ A) (hub : A ≤ 2 ^ 31 + 24) :
    A ≤ (if usub64 A 0 < 256 then 256 else usub64 A 0) % 2 ^ 32 := by
  have e31 : (2 : Nat) ^ 31 = 2147483648 := by norm_num
  have e32 : (2 : Nat) ^ 32 = 4294967296 := by norm_num
  have e64 : (2 : Nat) ^ 64 = 18446744073709551616 := by norm_num
  have hu : usub64 A 0 = A := by
    rw [usub64_of_le (Nat.zero_le A) (by omega)]
    omega
  rw [hu]
  by_cases hc : A < 256
  · rw [if_pos hc, Nat.mod_eq_of_lt (by omega)]
    omega
  · rw [if_neg hc, Nat.mod_eq_of_lt (by omega)]

theorem extend_arith (A f : Nat) (h24 : 24 ≤ A) (hub : A ≤ 2 ^ 31 + 24)
    (hf32 : f < 2 ^ 32) (hf0 : 0 < f) :
    A ≤ (f + (if usub64 A f < 256 then 256 else usub64 A f) % 2 ^ 32)
        % 2 ^ 32 := by
  have e31 : (2 : Nat) ^ 31 = 2147483648 := by norm_num
  have e32 : (2 : Nat) ^ 32 = 4294967296 := by norm_num
  have e64 : (2 : Nat) ^ 64 = 18446744073709551616 := by norm_num
  by_cases hfa : f ≤ A
  · have hu : usub64 A f = A - f := usub64_of_le hfa (by omega)
    rw [hu]
    by_cases hc : A - f < 256
    · rw [if_pos hc, Nat.mod_eq_of_lt (show (256 : Nat) < 2 ^ 32 by omega),
          Nat.mod_eq_of_lt (show f + 256 < 2 ^ 32 by omega)]
      omega
    · rw [if_neg hc, Nat.mod_eq_of_lt (show A - f < 2 ^ 32 by omega),
          Nat.mod_eq_of_lt (show f + (A - f) < 2 ^ 32 by omega)]
      omega
  · have hu : usub64 A f = 2 ^ 64 - (f - A) := usub64_of_gt (by omega) (by omega)
    rw [hu]
    have hc : ¬ 2 ^ 64 - (f - A) < 256 := by omega
    rw [if_neg hc]
    have hm1 : (2 ^ 64 - (f - A)) % 2 ^ 32 = 2 ^ 32 - (f - A) := by
      have : (2 : Nat) ^ 64 - (f - A)
          = 2 ^ 32 * (2 ^ 32 - 1) + (2 ^ 32 - (f - A)) := by omega
      rw [this, Nat.mul_add_mod, Nat.mod_eq_of_lt (by omega)]
    rw [hm1]
    have hm2 : (f + (2 ^ 32 - (f - A))) % 2 ^ 32 = A := by
      have : f + (2 ^ 32 - (f - A)) = 2 ^ 32 + A := by omega
      rw [this, Nat.add_mod_left, Nat.mod_eq_of_lt (by omega)]
    rw [hm2]

end MMSeg

namespace MMSeg

theorem extend_heap_true (h : Heap) (asize : Nat) :
    extend_heap h asize true =
      some (split
        (coalesce
          { blocks := h.blocks ++
              [⟨(if usub64 asize (spaceLeft h) < CHUNKSIZE then CHUNKSIZE
                 else usub64 asize (spaceLeft h)) % 2 ^ 32, false, none, none⟩],
            freeLists := h.freeLists,
            eptr := h.eptr + (if usub64 asize (spaceLeft h) < CHUNKSIZE
              then CHUNKSIZE else usub64 asize (spaceLeft h)) % 2 ^ 32,
            hi := h.hi + (if usub64 asize (spaceLeft h) < CHUNKSIZE
              then CHUNKSIZE else usub64 asize (spaceLeft h)) }
          (BASE + sumSizes h.blocks)).1
        (coalesce
          { blocks := h.blocks ++
              [⟨(if usub64 asize (spaceLeft h) < CHUNKSIZE then CHUNKSIZE
                 else usub64 asize (spaceLeft h)) % 2 ^ 32, false, none, none⟩],
            freeLists := h.freeLists,
            eptr := h.eptr + (if usub64 asize (spaceLeft h) < CHUNKSIZE
              then CHUNKSIZE else usub64 asize (spaceLeft h)) % 2 ^ 32,
            hi := h.hi + (if usub64 asize (spaceLeft h) < CHUNKSIZE
              then CHUNKSIZE else usub64 asize (spaceLeft h)) }
          (BASE + sumSizes h.blocks)).2
        asize) := rfl

end MMSeg

namespace MMSeg

theorem getBlk_getLast {bs : List Block} {lastB : Block}
    (hl : bs.getLast? = some lastB) :
    getBlk bs (bs.length - 1) = lastB := by
  have hd : bs.dropLast ++ [lastB] = bs := List.dropLast_append_getLast? lastB hl
  rw [← hd]
  have hlen2 : (bs.dropLast ++ [lastB]).length - 1 = bs.dropLast.length := by
    simp
  rw [hlen2, getBlk_append_last]

theorem extend_spec (h : Heap) (asize : Nat)
    (hpos : ∀ b ∈ h.blocks, 0 < b.size)
    (hs32 : ∀ b ∈ h.blocks, b.size < 2 ^ 32)
    (h24 : 24 ≤ asize) (hub : asize ≤ 2 ^ 31 + 24) {hp : Heap × Nat}
    (he : extend_heap h asize true = some hp) :
    ∃ i, findIdx hp.1.blocks BASE hp.2 = some i ∧
      asize ≤ (getBlk hp.1.blocks i).size := by
  have e31 : (2 : Nat) ^ 31 = 2147483648 := by norm_num
  have e32 : (2 : Nat) ^ 32 = 4294967296 := by norm_num
  have h32 : asize < 2 ^ 32 := by omega
  rw [extend_heap_true] at he
  set sz := (if usub64 asize (spaceLeft h) < CHUNKSIZE then CHUNKSIZE
             else usub64 asize (spaceLeft h)) with hsz
  set newB : Block := (⟨sz % 2 ^ 32, false, none, none⟩ : Block) with hnewB
  set h1 : Heap := { blocks := h.blocks ++ [newB], freeLists := h.freeLists,
                     eptr := h.eptr + sz % 2 ^ 32, hi := h.hi + sz } with hh1
  set bp0 := BASE + sumSizes h.blocks with hbp0
  have hp_eq : hp = split (coalesce h1 bp0).1 (coalesce h1 bp0).2 asize :=
    (Option.some_inj.mp he).symm
  subst hp_eq
  rw [split_snd]
  have hblocks1 : h1.blocks = h.blocks ++ [newB] := rfl
  have hf : findIdx h1.blocks BASE bp0 = some h.blocks.length := by
    rw [hblocks1, hbp0]
    exact findIdx_append_last hpos newB []  BASE
  have hnewB_at : getBlk h1.blocks h.blocks.length = newB := by
    rw [hblocks1]
    exact getBlk_append_last h.blocks newB []
  have hnext : (if h.blocks.length + 1 = h1.blocks.length
      then (⟨0, true, none, none⟩ : Block)
      else getBlk h1.blocks (h.blocks.length + 1)).alloc = true := by
    rw [if_pos (by rw [hblocks1]; simp)]
  by_cases hnil : h.blocks = []
  · -- no previous block: the prologue is the physical predecessor
    have hsl : spaceLeft h = 0 := by
      unfold spaceLeft
      rw [hnil]
      rfl
    have hprev : (if h.blocks.length = 0 then (⟨16, true, none, none⟩ : Block)
        else getBlk h1.blocks (h.blocks.length - 1)).alloc = true := by
      rw [if_pos (by rw [hnil]; rfl)]
    have hC := coalesce_case1 hf hprev hnext
    have hC1 : (coalesce h1 bp0).1 = add_block h1 bp0 := by rw [hC]
    have hC2 : (coalesce h1 bp0).2 = bp0 := by rw [hC]
    rw [hC1, hC2]
    have hfA : findIdx (add_block h1 bp0).blocks BASE bp0
        = some h.blocks.length := by
      rw [findIdx_eq_of_tags (tags_add_block h1 bp0)]
      exact hf
    have hszA : asize ≤ (getBlk (add_block h1 bp0).blocks h.blocks.length).size := by
      rw [getBlk_size_eq_of_sizes (sizesOf_eq_of_tags (tags_add_block h1 bp0))]
      rw [hnewB_at, hnewB]
      show asize ≤ sz % 2 ^ 32
      rw [hsz, hsl]
      simp only [CHUNKSIZE]
      exact extend_arith0 asize h24 hub
    obtain ⟨hs1, hs2⟩ := split_spec (add_block h1 bp0) bp0 asize hfA hszA h32
    exact ⟨h.blocks.length, hs1, hs2⟩
  · obtain ⟨lastB, hl⟩ : ∃ b, h.blocks.getLast? = some b := by
      rcases hgl : h.blocks.getLast? with _ | b
      · exact absurd (List.getLast?_eq_none_iff.mp hgl) hnil
      · exact ⟨b, rfl⟩
    have hmemlast : lastB ∈ h.blocks := by
      have hd : h.blocks.dropLast ++ [lastB] = h.blocks :=
        List.dropLast_append_getLast? lastB hl
      rw [← hd]
      simp
    have hlen0 : ¬ h.blocks.length = 0 := by
      have := List.length_pos_of_ne_nil hnil
      omega
    have hprev_val : getBlk h1.blocks (h.blocks.length - 1) = lastB := by
      rw [hblocks1, getBlk_append_left (by omega)]
      exact getBlk_getLast hl
    by_cases hal : lastB.alloc = true
    · -- free space at the end is zero: the last block is allocated
      have hsl : spaceLeft h = 0 := by
        unfold spaceLeft
        rw [hl]
        simp [hal]
      have hprev : (if h.blocks.length = 0 then (⟨16, true, none, none⟩ : Block)
          else getBlk h1.blocks (h.blocks.length - 1)).alloc = true := by
        rw [if_neg hlen0, hprev_val]
        exact hal
      have hC := coalesce_case1 hf hprev hnext
      have hC1 : (coalesce h1 bp0).1 = add_block h1 bp0 := by rw [hC]
      have hC2 : (coalesce h1 bp0).2 = bp0 := by rw [hC]
      rw [hC1, hC2]
      have hfA : findIdx (add_block h1 bp0).blocks BASE bp0
          = some h.blocks.length := by
        rw [findIdx_eq_of_tags (tags_add_block h1 bp0)]
        exact hf
      have hszA : asize ≤
          (getBlk (add_block h1 bp0).blocks h.blocks.length).size := by
        rw [getBlk_size_eq_of_sizes (sizesOf_eq_of_tags (tags_add_block h1 bp0))]
        rw [hnewB_at, hnewB]
        show asize ≤ sz % 2 ^ 32
        rw [hsz, hsl]
        simp only [CHUNKSIZE]
        exact extend_arith0 asize h24 hub
      obtain ⟨hs1, hs2⟩ := split_spec (add_block h1 bp0) bp0 asize hfA hszA h32
      exact ⟨h.blocks.length, hs1, hs2⟩
    · -- the last block is free: case 3 of coalesce merges it with the new one
      have half : lastB.alloc = false := by
        cases hb2 : lastB.alloc
        · rfl
        · exact absurd hb2 hal
      have hsl : spaceLeft h = lastB.size := by
        unfold spaceLeft
        rw [hl]
        simp [half]
      have hprev : (getBlk h1.blocks (h.blocks.length - 1)).alloc = false := by
        rw [hprev_val]
        exact half
      have hC := coalesce_case3 hf hlen0 hprev hnext
      rw [hprev_val, hnewB_at] at hC
      have hC1 := congrArg Prod.fst hC
      have hC2 := congrArg Prod.snd hC
      simp only [] at hC1 hC2
      rw [hC1, hC2]
      set ys := h.blocks.dropLast with hys
      have hd : ys ++ [lastB] = h.blocks := List.dropLast_append_getLast? lastB hl
      have hyslen : ys.length = h.blocks.length - 1 := by
        rw [hys]
        simp
      have hsum : sumSizes h.blocks = sumSizes ys + lastB.size := by
        conv_lhs => rw [← hd]
        rw [sumSizes_append]
        simp [sumSizes]
      have haddr : bp0 - lastB.size = BASE + sumSizes ys := by
        rw [hbp0]
        omega
      set D := (delete_block h1 (bp0 - lastB.size)).blocks with hD
      have eD : sizesOf D = sizesOf h1.blocks :=
        sizesOf_eq_of_tags (tags_delete_block h1 (bp0 - lastB.size))
      have hDlen : D.length = h.blocks.length + 1 := by
        have := congrArg List.length eD
        simp only [sizesOf, List.length_map] at this
        rw [this]
        simp [hblocks1]
      set T := D.take (h.blocks.length - 1) with hT
      have eT : sizesOf T = sizesOf ys := by
        rw [hT]
        have e1 : sizesOf (D.take (h.blocks.length - 1))
            = (sizesOf D).take (h.blocks.length - 1) := by
          simp [sizesOf, List.map_take]
        rw [e1, eD, hblocks1]
        have e2 : sizesOf (h.blocks ++ [newB])
            = sizesOf h.blocks ++ [newB.size] := by
          simp [sizesOf]
        rw [e2, List.take_append_of_le_length (by simp [sizesOf])]
        rw [hys, List.dropLast_eq_take]
        simp [sizesOf, List.map_take]
      have posT : ∀ b ∈ T, 0 < b.size := by
        refine pos_of_sizesOf eT ?_
        intro b hb
        exact hpos b (List.dropLast_subset h.blocks hb)
      have sumT : sumSizes T = sumSizes ys := sumSizes_eq_of_sizesOf eT
      have hTlen : T.length = h.blocks.length - 1 := by
        rw [hT, List.length_take, hDlen]
        omega
      set merged : Block := (⟨(lastB.size + newB.size) % 2 ^ 32, false,
        newB.prevF, lastB.nextF⟩ : Block) with hmerged
      have hsplice : splice D (h.blocks.length - 1) [merged] 2
          = T ++ merged :: D.drop (h.blocks.length - 1 + 2) := by
        unfold splice
        rw [List.append_assoc]
        rfl
      have hfin : findIdx (splice D (h.blocks.length - 1) [merged] 2) BASE
          (bp0 - lastB.size) = some (h.blocks.length - 1) := by
        rw [hsplice, haddr, ← sumT, ← hTlen]
        exact findIdx_append_last posT merged _ BASE
      have hgb_in : getBlk (splice D (h.blocks.length - 1) [merged] 2)
          (h.blocks.length - 1) = merged := by
        refine splice_getBlk ?_ merged [] 2
        rw [hDlen]
        omega
      have hszm : asize ≤ merged.size := by
        rw [hmerged]
        show asize ≤ (lastB.size + newB.size) % 2 ^ 32
        have hnsz : newB.size = sz % 2 ^ 32 := rfl
        rw [hnsz, hsz, hsl]
        simp only [CHUNKSIZE]
        exact extend_arith asize lastB.size h24 hub (hs32 lastB hmemlast)
          (hpos lastB hmemlast)
      have hfA : findIdx (add_block
          { delete_block h1 (bp0 - lastB.size) with
              blocks := splice D (h.blocks.length - 1) [merged] 2 }
          (bp0 - lastB.size)).blocks BASE (bp0 - lastB.size)
          = some (h.blocks.length - 1) := by
        rw [findIdx_eq_of_tags (tags_add_block _ _)]
        exact hfin
      have hszA : asize ≤ (getBlk (add_block
          { delete_block h1 (bp0 - lastB.size) with
              blocks := splice D (h.blocks.length - 1) [merged] 2 }
          (bp0 - lastB.size)).blocks (h.blocks.length - 1)).size := by
        rw [getBlk_size_eq_of_sizes (sizesOf_eq_of_tags (tags_add_block _ _))]
        rw [hgb_in]
        exact hszm
      obtain ⟨hs1, hs2⟩ := split_spec _ (bp0 - lastB.size) asize hfA hszA h32
      exact ⟨h.blocks.length - 1, hs1, hs2⟩

end MMSeg

namespace MMSeg

theorem extend_heap_false (h : Heap) (asize : Nat) :
    extend_heap h asize false = none := rfl

theorem malloc_spec (h : Heap) (size : Nat) (ok : Bool)
    (hpos : ∀ b ∈ h.blocks, 0 < b.size)
    (hs32 : ∀ b ∈ h.blocks, b.size < 2 ^ 32)
    (hub : size ≤ 2 ^ 31) {a : Nat}
    (hres : (malloc_model h size ok).1 = some a) :
    ∃ i, findIdx (malloc_model h size ok).2.blocks BASE a = some i ∧
      align_size size ≤ (getBlk (malloc_model h size ok).2.blocks i).size := by
  by_cases h0 : size = 0
  · rw [h0] at hres
    simp [malloc_model] at hres
  · have h0p : 0 < size := Nat.pos_of_ne_zero h0
    obtain ⟨hge, h24, hub2, hmod⟩ := align_size_spec size h0p hub
    have e31 : (2 : Nat) ^ 31 = 2147483648 := by norm_num
    have e32 : (2 : Nat) ^ 32 = 4294967296 := by norm_num
    have h32 : align_size size < 2 ^ 32 := by omega
    unfold malloc_model at hres ⊢
    rw [if_neg h0] at hres ⊢
    cases hsearch : (search_list h (align_size size) (h.blocks.length + 1)).1
      with
    | some bp =>
        simp only [hsearch] at hres ⊢
        have hab : bp = a := Option.some_inj.mp hres
        subst hab
        have hspec := searchLoop_spec h (align_size size)
          (h.blocks.length + 1) h32
          (NUM_LISTS + 1 - get_list (align_size size))
          (get_list (align_size size))
          (h.freeLists.getD (get_list (align_size size)) none)
          [get_list (align_size size)] hsearch
        obtain ⟨i, hfi, hsz⟩ := hspec
        refine ⟨i, ?_, ?_⟩
        · rw [findIdx_eq_of_sizes (sizesOf_set_alloc _ bp)]
          exact hfi
        · rw [getBlk_size_eq_of_sizes (sizesOf_set_alloc _ bp)]
          exact hsz
    | none =>
        simp only [hsearch] at hres ⊢
        cases hok : ok with
        | false =>
            rw [hok, extend_heap_false] at hres
            simp at hres
        | true =>
            rw [hok] at hres
            revert hres
            cases hext : extend_heap h (align_size size) true with
            | none =>
                intro hres
                simp at hres
            | some p =>
                intro hres
                have hab : p.2 = a := by
                  simpa using hres
                show ∃ i, findIdx (set_alloc p.1 p.2).blocks BASE a = some i ∧
                  align_size size ≤ (getBlk (set_alloc p.1 p.2).blocks i).size
                obtain ⟨i, hfi, hsz⟩ := extend_spec h (align_size size) hpos
                  hs32 h24 (by omega) hext
                rw [hab] at hfi
                refine ⟨i, ?_, ?_⟩
                · rw [findIdx_eq_of_sizes (sizesOf_set_alloc _ p.2)]
                  exact hfi
                · rw [getBlk_size_eq_of_sizes (sizesOf_set_alloc _ p.2)]
                  exact hsz

end MMSeg

namespace MMSeg

/-- C1, amended: for every heap state whose block tags are well formed
(positive, 32-bit) and every request of at most `2^31` bytes — so that the
`size + 2*DSIZE + (DSIZE-1)` rounding can neither wrap the `size_t`
arithmetic nor overflow the 32-bit size tags — every non-null address
returned by `allocate` is backed by a block of the resulting heap whose
total size exceeds the request by at least the 16 bytes of overhead, i.e.
whose payload region holds at least the requested byte count.  (The
unamended claim fails for wrapping requests: see the counterexample.) -/
theorem c1_amended (h : Heap) (size : Nat) (ok : Bool) (a : Nat)
    (hpos : ∀ b ∈ h.blocks, 0 < b.size)
    (hs32 : ∀ b ∈ h.blocks, b.size < 2 ^ 32)
    (hreq : size ≤ 2 ^ 31)
    (hres : (malloc_model h size ok).1 = some a) :
    ∃ i, findIdx (malloc_model h size ok).2.blocks BASE a = some i ∧
      size + 16 ≤ (getBlk (malloc_model h size ok).2.blocks i).size := by
  have h0 : ¬ size = 0 := by
    intro h0
    rw [h0] at hres
    simp [malloc_model] at hres
  obtain ⟨i, hfi, hsz⟩ := malloc_spec h size ok hpos hs32 hreq hres
  obtain ⟨hge, _, _, _⟩ := align_size_spec size (Nat.pos_of_ne_zero h0) hreq
  exact ⟨i, hfi, le_trans hge hsz⟩

/-- Instantiation of the amended C1 on a one-block heap: `allocate(8)`
returns address 24 backed by a block of size at least 24. -/
theorem c1_amended_witness :
    ∃ i, findIdx (malloc_model okHeap 8 true).2.blocks BASE 24 = some i ∧
      8 + 16 ≤ (getBlk (malloc_model okHeap 8 true).2.blocks i).size :=
  c1_amended okHeap 8 true 24 (by decide) (by decide) (by norm_num) rfl

end MMSeg

namespace MMSeg

theorem modifyIdx_getBlk {bs : List Block} {i : Nat} (hlt : i < bs.length)
    (f : Block → Block) : getBlk (modifyIdx bs i f) i = f (getBlk bs i) := by
  induction bs generalizing i with
  | nil => simp at hlt
  | cons b bs ih =>
      cases i with
      | zero => simp [modifyIdx, getBlk]
      | succ n =>
          simp only [modifyIdx, getBlk, List.getD_cons_succ]
          exact ih (by simpa using hlt) 

theorem modifyAt_getBlk {h : Heap} {a i : Nat}
    (hf : findIdx h.blocks BASE a = some i) (f : Block → Block) :
    getBlk (modifyAt h a f).blocks i = f (getBlk h.blocks i) := by
  unfold modifyAt
  rw [hf]
  exact modifyIdx_getBlk (findIdx_lt_length hf) f

theorem setIdx_self {α : Type} {l : List α} {i : Nat} {v : α}
    (hv : l[i]? = some v) : l.set i v = l := by
  induction l generalizing i with
  | nil => simp at hv
  | cons x xs ih =>
      cases i with
      | zero =>
          simp at hv
          simp [hv]
      | succ n =>
          simp at hv
          simp [List.set_cons_succ, ih hv]

theorem findIdx_splice_second {bs : List Block} {c a i : Nat} (x y : Block)
    (xs : List Block) (k : Nat) (hf : findIdx bs c a = some i)
    (hpos : ∀ b ∈ bs.take i, 0 < b.size) (hx : 0 < x.size) :
    findIdx (splice bs i (x :: y :: xs) k) c (a + x.size) = some (i + 1) := by
  induction bs generalizing c i with
  | nil => simp [findIdx] at hf
  | cons b bs ih =>
      rcases findIdx_cons_inv hf with ⟨rfl, rfl⟩ | ⟨j, hc, hj, rfl⟩
      · simp only [splice, List.take_zero, List.drop_zero, List.nil_append]
        have hne : ¬ c = c + x.size := by omega
        simp [findIdx, hne]
      · have hb : 0 < b.size := hpos b (by simp)
        have hca : c < a := by
          have hle2 := findIdx_ge hj
          omega
        have hne : ¬ c = a + x.size := by omega
        have := ih hj (fun b2 hb2 => hpos b2 (by simp [hb2])) 
        simp only [splice] at this ⊢
        have hk : j + 1 + k = (j + k) + 1 := by omega
        simp only [List.take_succ_cons, hk, List.drop_succ_cons,
          List.cons_append, findIdx, hne, if_false, List.append_eq]
        rw [this]
        rfl

end MMSeg

namespace MMSeg

theorem modifyIdx_getBlk_ne {bs : List Block} {i j : Nat} (hne : ¬ j = i)
    (f : Block → Block) : getBlk (modifyIdx bs i f) j = getBlk bs j := by
  induction bs generalizing i j with
  | nil => rfl
  | cons b bs ih =>
      cases i with
      | zero =>
          cases j with
          | zero => exact absurd rfl hne
          | succ m => simp [modifyIdx, getBlk]
      | succ n =>
          cases j with
          | zero => simp [modifyIdx, getBlk]
          | succ m =>
              simp only [modifyIdx, getBlk, List.getD_cons_succ]
              exact ih (by omega)

theorem modifyAt_getBlk_ne {h : Heap} {a i j : Nat}
    (hf : findIdx h.blocks BASE a = some i) (hne : ¬ j = i)
    (f : Block → Block) :
    getBlk (modifyAt h a f).blocks j = getBlk h.blocks j := by
  unfold modifyAt
  rw [hf]
  exact modifyIdx_getBlk_ne hne f

theorem getElem?_getBlk {bs : List Block} {i : Nat} (hlt : i < bs.length) :
    bs[i]? = some (getBlk bs i) := by
  rw [List.getElem?_eq_getElem hlt]
  unfold getBlk
  rw [List.getD_eq_getElem?_getD, List.getElem?_eq_getElem hlt]
  rfl

theorem modifyIdx_map_set {α : Type} (g : Block → α) (f : Block → Block)
    {bs : List Block} {i : Nat} (hlt : i < bs.length) :
    (modifyIdx bs i f).map g = (bs.map g).set i (g (f (getBlk bs i))) := by
  induction bs generalizing i with
  | nil => simp at hlt
  | cons b bs ih =>
      cases i with
      | zero => simp [modifyIdx, getBlk]
      | succ n =>
          simp only [modifyIdx, List.map_cons, getBlk, List.getD_cons_succ,
            List.set_cons_succ]
          rw [ih (by simpa using hlt)]
          rfl

theorem realloc_shrink_eq (h : Heap) (ptr size : Nat) (ok : Bool) {i : Nat}
    (h0 : ¬ size = 0) (hp0 : ¬ ptr = 0)
    (hfind : findIdx h.blocks BASE ptr = some i)
    (hle : align_size size ≤ (getBlk h.blocks i).size) :
    realloc_model h ptr size ok =
      (some (split (add_block (set_free h ptr) ptr) ptr (align_size size)).2,
       set_alloc
         (split (add_block (set_free h ptr) ptr) ptr (align_size size)).1
         (split (add_block (set_free h ptr) ptr) ptr (align_size size)).2,
       []) := by
  unfold realloc_model
  rw [if_neg h0, if_neg hp0, hfind]
  simp only [hle, if_true]

end MMSeg

namespace MMSeg

theorem tags_modifyAt_set {h : Heap} {a i : Nat}
    (hf : findIdx h.blocks BASE a = some i) (f : Block → Block) :
    tags (modifyAt h a f) = (tags h).set i (tagOf (f (getBlk h.blocks i))) := by
  unfold modifyAt
  rw [hf]
  exact modifyIdx_map_set tagOf f (findIdx_lt_length hf)

theorem set_alloc_getBlk {h : Heap} {a i : Nat}
    (hf : findIdx h.blocks BASE a = some i) :
    getBlk (set_alloc h a).blocks i
      = { getBlk h.blocks i with alloc := true } :=
  modifyAt_getBlk hf _

theorem set_alloc_getBlk_ne {h : Heap} {a i j : Nat}
    (hf : findIdx h.blocks BASE a = some i) (hne : ¬ j = i) :
    getBlk (set_alloc h a).blocks j = getBlk h.blocks j :=
  modifyAt_getBlk_ne hf hne _

theorem tags_set_alloc_at {h : Heap} {a i : Nat}
    (hf : findIdx h.blocks BASE a = some i) :
    tags (set_alloc h a) = (tags h).set i ((getBlk h.blocks i).size, true) := by
  unfold set_alloc
  rw [tags_modifyAt_set hf]
  rfl

theorem tags_set_free_at {h : Heap} {a i : Nat}
    (hf : findIdx h.blocks BASE a = some i) :
    tags (set_free h a) = (tags h).set i ((getBlk h.blocks i).size, false) := by
  unfold set_free
  rw [tags_modifyAt_set hf]
  rfl

/-- C6: on a well-formed heap, `reallocate(ptr, size)` with a non-zero size
whose adjusted value is at most the block's current total size shrinks the
block in place: it returns the very address it was given, performs no
payload copy (the `memcpy` log is empty), and when the freed tail is at
least one minimum block size the resulting heap has the shrunk allocated
block at `ptr` followed by a new free block covering exactly the tail;
when the tail is smaller the heap's size/allocation content is unchanged. -/
theorem c6_realloc_shrink (h : Heap) (ptr size : Nat) (ok : Bool) {i : Nat}
    (hfind : findIdx h.blocks BASE ptr = some i)
    (halloc : (getBlk h.blocks i).alloc = true)
    (hpos : ∀ b ∈ h.blocks, 0 < b.size)
    (hs32 : (getBlk h.blocks i).size < 2 ^ 32)
    (h0 : ¬ size = 0) (hA0 : 0 < align_size size)
    (hle : align_size size ≤ (getBlk h.blocks i).size) :
    (realloc_model h ptr size ok).1 = some ptr ∧
    (realloc_model h ptr size ok).2.2 = [] ∧
    (align_size size + MIN_SIZE ≤ (getBlk h.blocks i).size →
      findIdx (realloc_model h ptr size ok).2.1.blocks BASE ptr = some i ∧
      (getBlk (realloc_model h ptr size ok).2.1.blocks i).size
        = align_size size ∧
      (getBlk (realloc_model h ptr size ok).2.1.blocks i).alloc = true ∧
      findIdx (realloc_model h ptr size ok).2.1.blocks BASE
        (ptr + align_size size) = some (i + 1) ∧
      (getBlk (realloc_model h ptr size ok).2.1.blocks (i + 1)).size
        = (getBlk h.blocks i).size - align_size size ∧
      (getBlk (realloc_model h ptr size ok).2.1.blocks (i + 1)).alloc
        = false) ∧
    ((getBlk h.blocks i).size < align_size size + MIN_SIZE →
      tags (realloc_model h ptr size ok).2.1 = tags h) := by
  have hp0 : ¬ ptr = 0 := by
    have := findIdx_ge hfind
    simp only [BASE] at this
    omega
  rw [realloc_shrink_eq h ptr size ok h0 hp0 hfind hle]
  have e2s : sizesOf (add_block (set_free h ptr) ptr).blocks
      = sizesOf h.blocks := by
    rw [sizesOf_eq_of_tags (tags_add_block _ _), sizesOf_set_free]
  have hf2 : findIdx (add_block (set_free h ptr) ptr).blocks BASE ptr
      = some i := by
    rw [findIdx_eq_of_sizes e2s, hfind]
  have hsz2 : (getBlk (add_block (set_free h ptr) ptr).blocks i).size
      = (getBlk h.blocks i).size := getBlk_size_eq_of_sizes e2s i
  rw [split_snd]
  refine ⟨rfl, rfl, ?_, ?_⟩
  · intro hcase
    unfold split
    rw [hf2]
    have hcond : align_size size + MIN_SIZE
        ≤ (getBlk (add_block (set_free h ptr) ptr).blocks i).size := by
      rw [hsz2]
      exact hcase
    simp only [hcond, if_true]
    have eD : sizesOf (delete_block (add_block (set_free h ptr) ptr)
        ptr).blocks = sizesOf h.blocks := by
      rw [sizesOf_eq_of_tags (tags_delete_block _ _), e2s]
    have hfD : findIdx (delete_block (add_block (set_free h ptr) ptr)
        ptr).blocks BASE ptr = some i := by
      rw [findIdx_eq_of_sizes eD, hfind]
    have hltD : i < (delete_block (add_block (set_free h ptr) ptr)
        ptr).blocks.length := findIdx_lt_length hfD
    have hAmod : align_size size % 2 ^ 32 = align_size size :=
      Nat.mod_eq_of_lt (by omega)
    have hfS : findIdx (splice (delete_block (add_block (set_free h ptr) ptr)
        ptr).blocks i
        [⟨align_size size % 2 ^ 32, false, none,
           (getBlk (add_block (set_free h ptr) ptr).blocks i).nextF⟩,
         ⟨((getBlk (add_block (set_free h ptr) ptr).blocks i).size
             - align_size size) % 2 ^ 32, false,
           (getBlk (add_block (set_free h ptr) ptr).blocks i).prevF, none⟩] 1)
        BASE ptr = some i := findIdx_splice _ _ 1 hfD
    have hfS2 : findIdx (splice (delete_block (add_block (set_free h ptr) ptr)
        ptr).blocks i
        [⟨align_size size % 2 ^ 32, false, none,
           (getBlk (add_block (set_free h ptr) ptr).blocks i).nextF⟩,
         ⟨((getBlk (add_block (set_free h ptr) ptr).blocks i).size
             - align_size size) % 2 ^ 32, false,
           (getBlk (add_block (set_free h ptr) ptr).blocks i).prevF, none⟩] 1)
        BASE (ptr + align_size size) = some (i + 1) := by
      have hposD : ∀ b ∈ (delete_block (add_block (set_free h ptr) ptr)
          ptr).blocks.take i, 0 < b.size := by
        intro b hb
        exact pos_of_sizesOf eD hpos b (List.take_subset i _ hb)
      have h2x := findIdx_splice_second
        (⟨align_size size % 2 ^ 32, false, none,
           (getBlk (add_block (set_free h ptr) ptr).blocks i).nextF⟩ : Block)
        (⟨((getBlk (add_block (set_free h ptr) ptr).blocks i).size
             - align_size size) % 2 ^ 32, false,
           (getBlk (add_block (set_free h ptr) ptr).blocks i).prevF, none⟩ : Block)
        [] 1 hfD hposD (show 0 < align_size size % 2 ^ 32 by omega)
      have hx : (⟨align_size size % 2 ^ 32, false, none,
          (getBlk (add_block (set_free h ptr) ptr).blocks i).nextF⟩
          : Block).size = align_size size := hAmod
      rw [hx] at h2x
      exact h2x
    have eS : sizesOf (add_block
        { delete_block (add_block (set_free h ptr) ptr) ptr with
            blocks := splice (delete_block (add_block (set_free h ptr) ptr)
              ptr).blocks i
              [⟨align_size size % 2 ^ 32, false, none,
                 (getBlk (add_block (set_free h ptr) ptr).blocks i).nextF⟩,
               ⟨((getBlk (add_block (set_free h ptr) ptr).blocks i).size
                   - align_size size) % 2 ^ 32, false,
                 (getBlk (add_block (set_free h ptr) ptr).blocks i).prevF,
                 none⟩] 1 }
        (ptr + align_size size)).blocks
        = sizesOf (splice (delete_block (add_block (set_free h ptr) ptr)
              ptr).blocks i
              [⟨align_size size % 2 ^ 32, false, none,
                 (getBlk (add_block (set_free h ptr) ptr).blocks i).nextF⟩,
               ⟨((getBlk (add_block (set_free h ptr) ptr).blocks i).size
                   - align_size size) % 2 ^ 32, false,
                 (getBlk (add_block (set_free h ptr) ptr).blocks i).prevF,
                 none⟩] 1) :=
      sizesOf_eq_of_tags (tags_add_block _ _)
    have hfp : findIdx (add_block
        { delete_block (add_block (set_free h ptr) ptr) ptr with
            blocks := splice (delete_block (add_block (set_free h ptr) ptr)
              ptr).blocks i
              [⟨align_size size % 2 ^ 32, false, none,
                 (getBlk (add_block (set_free h ptr) ptr).blocks i).nextF⟩,
               ⟨((getBlk (add_block (set_free h ptr) ptr).blocks i).size
                   - align_size size) % 2 ^ 32, false,
                 (getBlk (add_block (set_free h ptr) ptr).blocks i).prevF,
                 none⟩] 1 }
        (ptr + align_size size)).blocks BASE ptr = some i := by
      rw [findIdx_eq_of_sizes eS]
      exact hfS
    refine ⟨?_, ?_, ?_, ?_, ?_, ?_⟩
    · rw [findIdx_eq_of_sizes (sizesOf_set_alloc _ ptr)]
      exact hfp
    · rw [set_alloc_getBlk hfp]
      show (getBlk (add_block _ (ptr + align_size size)).blocks i).size
        = align_size size
      rw [getBlk_size_eq_of_sizes eS, splice_getBlk (Nat.le_of_lt hltD)]
      exact hAmod
    · rw [set_alloc_getBlk hfp]
    · rw [findIdx_eq_of_sizes (sizesOf_set_alloc _ ptr),
          findIdx_eq_of_sizes eS]
      exact hfS2
    · rw [set_alloc_getBlk_ne hfp (by omega)]
      have hT := getBlk_eq_of_tags (tags_add_block
        { delete_block (add_block (set_free h ptr) ptr) ptr with
            blocks := splice (delete_block (add_block (set_free h ptr) ptr)
              ptr).blocks i
              [⟨align_size size % 2 ^ 32, false, none,
                 (getBlk (add_block (set_free h ptr) ptr).blocks i).nextF⟩,
               ⟨((getBlk (add_block (set_free h ptr) ptr).blocks i).size
                   - align_size size) % 2 ^ 32, false,
                 (getBlk (add_block (set_free h ptr) ptr).blocks i).prevF,
                 none⟩] 1 }
        (ptr + align_size size)) (i + 1)
      rw [hT.1, splice_getBlk_next (Nat.le_of_lt hltD)]
      show ((getBlk (add_block (set_free h ptr) ptr).blocks i).size
        - align_size size) % 2 ^ 32 = (getBlk h.blocks i).size - align_size size
      rw [hsz2]
      exact Nat.mod_eq_of_lt (by omega)
    · rw [set_alloc_getBlk_ne hfp (by omega)]
      have hT := getBlk_eq_of_tags (tags_add_block
        { delete_block (add_block (set_free h ptr) ptr) ptr with
            blocks := splice (delete_block (add_block (set_free h ptr) ptr)
              ptr).blocks i
              [⟨align_size size % 2 ^ 32, false, none,
                 (getBlk (add_block (set_free h ptr) ptr).blocks i).nextF⟩,
               ⟨((getBlk (add_block (set_free h ptr) ptr).blocks i).size
                   - align_size size) % 2 ^ 32, false,
                 (getBlk (add_block (set_free h ptr) ptr).blocks i).prevF,
                 none⟩] 1 }
        (ptr + align_size size)) (i + 1)
      rw [hT.2, splice_getBlk_next (Nat.le_of_lt hltD)]
  · intro hcase
    unfold split
    rw [hf2]
    have hcond : ¬ (align_size size + MIN_SIZE
        ≤ (getBlk (add_block (set_free h ptr) ptr).blocks i).size) := by
      rw [hsz2]
      omega
    simp only [hcond, if_false]
    have eD : sizesOf (delete_block (add_block (set_free h ptr) ptr)
        ptr).blocks = sizesOf h.blocks := by
      rw [sizesOf_eq_of_tags (tags_delete_block _ _), e2s]
    have hfD : findIdx (delete_block (add_block (set_free h ptr) ptr)
        ptr).blocks BASE ptr = some i := by
      rw [findIdx_eq_of_sizes eD, hfind]
    have hszD : (getBlk (delete_block (add_block (set_free h ptr) ptr)
        ptr).blocks i).size = (getBlk h.blocks i).size :=
      getBlk_size_eq_of_sizes eD i
    have tpost : tags (set_alloc (delete_block (add_block (set_free h ptr)
        ptr) ptr) ptr)
        = (tags (delete_block (add_block (set_free h ptr) ptr) ptr)).set i
          ((getBlk h.blocks i).size, true) := by
      rw [tags_set_alloc_at hfD, hszD]
    have tdel : tags (delete_block (add_block (set_free h ptr) ptr) ptr)
        = (tags h).set i ((getBlk h.blocks i).size, false) := by
      rw [tags_delete_block, tags_add_block, tags_set_free_at hfind]
    rw [tpost, tdel, List.set_set]
    apply setIdx_self
    have hlt : i < h.blocks.length := findIdx_lt_length hfind
    have : (tags h)[i]? = some (tagOf (getBlk h.blocks i)) := by
      unfold tags
      rw [List.getElem?_map, getElem?_getBlk hlt]
      rfl
    rw [this]
    simp [tagOf, halloc]

end MMSeg

namespace MMSeg

/-- A heap with a single allocated 120-byte block at address 24. -/
def c6Heap : Heap :=
  { blocks := [⟨120, true, none, none⟩],
    freeLists := List.replicate NUM_LISTS (none : Option Nat),
    eptr := 136, hi := 140 }

/-- Scenario C instantiated: `reallocate(24, 10)` on `c6Heap` returns the
same address 24 with no copy, the block shrinks to the adjusted size 32,
and a free block of size 88 covers the freed tail at address 56. -/
theorem c6_realloc_shrink_witness :
    (realloc_model c6Heap 24 10 true).1 = some 24 ∧
    (realloc_model c6Heap 24 10 true).2.2 = [] ∧
    (align_size 10 + MIN_SIZE ≤ (getBlk c6Heap.blocks 0).size →
      findIdx (realloc_model c6Heap 24 10 true).2.1.blocks BASE 24
        = some 0 ∧
      (getBlk (realloc_model c6Heap 24 10 true).2.1.blocks 0).size
        = align_size 10 ∧
      (getBlk (realloc_model c6Heap 24 10 true).2.1.blocks 0).alloc = true ∧
      findIdx (realloc_model c6Heap 24 10 true).2.1.blocks BASE
        (24 + align_size 10) = some (0 + 1) ∧
      (getBlk (realloc_model c6Heap 24 10 true).2.1.blocks (0 + 1)).size
        = (getBlk c6Heap.blocks 0).size - align_size 10 ∧
      (getBlk (realloc_model c6Heap 24 10 true).2.1.blocks (0 + 1)).alloc
        = false) ∧
    ((getBlk c6Heap.blocks 0).size < align_size 10 + MIN_SIZE →
      tags (realloc_model c6Heap 24 10 true).2.1 = tags c6Heap) :=
  c6_realloc_shrink c6Heap 24 10 true rfl rfl (by decide) (by decide)
    (by decide) (by decide) (by decide)

end MMSeg

namespace MMSeg

/-- No two physically adjacent blocks are both free, phrased on the
size/allocation content (the prologue and epilogue sentinels are allocated,
so only the interior pairs matter). -/
def noAdjTags (l : List (Nat × Bool)) : Prop :=
  ∀ i p q, l[i]? = some p → l[i + 1]? = some q → p.2 = true ∨ q.2 = true

theorem noAdjTags_splice (T : List (Nat × Bool)) (I k : Nat) (m : Nat)
    (hI : I < T.length)
    (hcons : noAdjTags T)
    (hprev : I = 0 ∨ ∀ p, T[I - 1]? = some p → p.2 = true)
    (hnext : ∀ q, T[I + k]? = some q → q.2 = true) :
    noAdjTags (T.take I ++ (m, false) :: T.drop (I + k)) := by
  have hlenL : (T.take I).length = I := by
    rw [List.length_take]
    omega
  intro j p q hp hq
  by_cases hj1 : j + 1 < I
  · -- both in the prefix
    rw [List.getElem?_append_left (by omega), List.getElem?_take_of_lt
      (by omega)] at hp
    rw [List.getElem?_append_left (by omega), List.getElem?_take_of_lt
      (by omega)] at hq
    exact hcons j p q hp hq
  · by_cases hj2 : j + 1 = I
    · -- pair (I-1, merged): the old left neighbor is allocated
      rw [List.getElem?_append_left (by omega), List.getElem?_take_of_lt
        (by omega)] at hp
      left
      rcases hprev with h0 | hall
      · omega
      · refine hall p ?_
        have hidx : I - 1 = j := by omega
        rw [hidx]
        exact hp
    · by_cases hj3 : j = I
      · -- pair (merged, old I+k)
        subst hj3
        rw [List.getElem?_append_right (by omega), hlenL] at hq
        have h1 : (j + 1) - j = 1 := by omega
        rw [h1] at hq
        simp only [List.getElem?_cons_succ, List.getElem?_drop] at hq
        rw [Nat.add_zero] at hq
        exact Or.inr (hnext q hq)
      · -- both strictly after the merged block
        have hjI : I < j := by omega
        rw [List.getElem?_append_right (by omega), hlenL] at hp
        rw [List.getElem?_append_right (by omega), hlenL] at hq
        have e1 : j - I = (j - I - 1) + 1 := by omega
        have e2 : j + 1 - I = (j - I) + 1 := by omega
        rw [e1] at hp
        rw [e2, e1] at hq
        simp only [List.getElem?_cons_succ, List.getElem?_drop] at hp hq
        refine hcons (I + k + (j - I - 1)) p q hp ?_
        have hidx : I + k + (j - I - 1 + 1) = I + k + (j - I - 1) + 1 := by
          omega
        rw [hidx] at hq
        exact hq

end MMSeg

namespace MMSeg

theorem coalesce_case2 {h : Heap} {bp i : Nat}
    (hf : findIdx h.blocks BASE bp = some i)
    (hprev : (if i = 0 then (⟨16, true, none, none⟩ : Block)
      else getBlk h.blocks (i - 1)).alloc = true)
    (hi1 : ¬ i + 1 = h.blocks.length)
    (hnext : (getBlk h.blocks (i + 1)).alloc = false) :
    coalesce h bp =
      (add_block
        { delete_block h (bp + (getBlk h.blocks i).size) with
            blocks := splice
              (delete_block h (bp + (getBlk h.blocks i).size)).blocks i
              [⟨((getBlk h.blocks i).size + (getBlk h.blocks (i + 1)).size)
                  % 2 ^ 32,
                false, (getBlk h.blocks (i + 1)).prevF,
                (getBlk h.blocks i).nextF⟩] 2 }
        bp, bp) := by
  unfold coalesce
  rw [hf]
  simp only [hi1, if_false, hprev, hnext]
  simp

theorem coalesce_case4 {h : Heap} {bp i : Nat}
    (hf : findIdx h.blocks BASE bp = some i) (hi0 : ¬ i = 0)
    (hprev : (getBlk h.blocks (i - 1)).alloc = false)
    (hi1 : ¬ i + 1 = h.blocks.length)
    (hnext : (getBlk h.blocks (i + 1)).alloc = false) :
    coalesce h bp =
      (add_block
        { delete_block (delete_block h (bp + (getBlk h.blocks i).size))
            (bp - (getBlk h.blocks (i - 1)).size) with
            blocks := splice
              (delete_block
                (delete_block h (bp + (getBlk h.blocks i).size))
                (bp - (getBlk h.blocks (i - 1)).size)).blocks (i - 1)
              [⟨((getBlk h.blocks i).size + (getBlk h.blocks (i - 1)).size
                    + (getBlk h.blocks (i + 1)).size) % 2 ^ 32,
                false, (getBlk h.blocks (i + 1)).prevF,
                (getBlk h.blocks (i - 1)).nextF⟩] 3 }
        (bp - (getBlk h.blocks (i - 1)).size),
       bp - (getBlk h.blocks (i - 1)).size) := by
  unfold coalesce
  rw [hf]
  simp only [hi0, hi1, if_false, hprev, hnext]
  simp

end MMSeg

namespace MMSeg

theorem tags_getElem? {h : Heap} {j : Nat} (hlt : j < h.blocks.length) :
    (tags h)[j]? = some ((getBlk h.blocks j).size, (getBlk h.blocks j).alloc)
    := by
  unfold tags
  rw [List.getElem?_map, getElem?_getBlk hlt]
  rfl

theorem tags_splice (bs : List Block) (i k : Nat) (x : Block) :
    (splice bs i [x] k).map tagOf
      = (bs.map tagOf).take i ++ tagOf x :: (bs.map tagOf).drop (i + k) := by
  unfold splice
  simp [List.map_take, List.map_drop]

theorem set_take_le {α : Type} (l : List α) {i j : Nat} (hle : j ≤ i)
    (v : α) : (l.set i v).take j = l.take j := by
  rw [List.set_take]
  apply List.set_eq_of_length_le
  rw [List.length_take]
  omega

theorem set_drop_lt {α : Type} (l : List α) {i j : Nat} (h : i < j) (v : α) :
    (l.set i v).drop j = l.drop j := by
  rw [List.drop_set, if_pos h]

/-- C3: freeing a non-null allocated block of a consistent heap restores
the eager-coalescing invariant — after `free` (clear the bit, then coalesce
with whichever physical neighbors are free, unlinking them first and
inserting the single merged block) no two physically adjacent blocks
between prologue and epilogue are both free. -/
theorem c3_eager_coalescing (h : Heap) (a : Nat) {i : Nat}
    (hfind : findIdx h.blocks BASE a = some i)
    (halloc : (getBlk h.blocks i).alloc = true)
    (ha : ¬ a = 0)
    (hcons : noAdjTags (tags h)) :
    noAdjTags (tags (free_model h a)) := by
  have hlt : i < h.blocks.length := findIdx_lt_length hfind
  have hlenT : (tags h).length = h.blocks.length := by simp [tags]
  have t1 : tags (set_free h a)
      = (tags h).set i ((getBlk h.blocks i).size, false) :=
    tags_set_free_at hfind
  have e1 : sizesOf (set_free h a).blocks = sizesOf h.blocks :=
    sizesOf_set_free h a
  have hf1 : findIdx (set_free h a).blocks BASE a = some i := by
    rw [findIdx_eq_of_sizes e1, hfind]
  have hlen1 : (set_free h a).blocks.length = h.blocks.length := by
    have := congrArg List.length e1
    simpa [sizesOf] using this
  have hbridge : ∀ j, ¬ j = i → j < h.blocks.length →
      (tags h)[j]? = some ((getBlk (set_free h a).blocks j).size,
        (getBlk (set_free h a).blocks j).alloc) := by
    intro j hne hjl
    have hx : (tags (set_free h a))[j]?
        = some ((getBlk (set_free h a).blocks j).size,
          (getBlk (set_free h a).blocks j).alloc) :=
      tags_getElem? (by rw [hlen1]; exact hjl)
    rw [t1, List.getElem?_set,
        if_neg (show ¬ i = j from fun hc => hne hc.symm)] at hx
    exact hx
  have hprevOr : (if i = 0 then (⟨16, true, none, none⟩ : Block)
      else getBlk (set_free h a).blocks (i - 1)).alloc = true →
      (i = 0 ∨ ∀ p, (tags h)[i - 1]? = some p → p.2 = true) := by
    intro hP
    by_cases hi0 : i = 0
    · exact Or.inl hi0
    · right
      intro p hp
      rw [if_neg hi0] at hP
      rw [hbridge (i - 1) (by omega) (by omega)] at hp
      have := Option.some_inj.mp hp
      rw [← this, hP]
  have hnextTrue : (if i + 1 = (set_free h a).blocks.length
      then (⟨0, true, none, none⟩ : Block)
      else getBlk (set_free h a).blocks (i + 1)).alloc = true →
      ∀ q, (tags h)[i + 1]? = some q → q.2 = true := by
    intro hN q hq
    by_cases hi1 : i + 1 = (set_free h a).blocks.length
    · exfalso
      have : (tags h)[i + 1]? = none := by
        apply List.getElem?_eq_none
        omega
      rw [this] at hq
      exact Option.noConfusion hq
    · rw [if_neg hi1] at hN
      rw [hbridge (i + 1) (by omega) (by omega)] at hq
      have := Option.some_inj.mp hq
      rw [← this, hN]
  unfold free_model
  rw [if_neg ha]
  by_cases hP : (if i = 0 then (⟨16, true, none, none⟩ : Block)
      else getBlk (set_free h a).blocks (i - 1)).alloc = true
  · by_cases hN : (if i + 1 = (set_free h a).blocks.length
        then (⟨0, true, none, none⟩ : Block)
        else getBlk (set_free h a).blocks (i + 1)).alloc = true
    · -- Case 1: both neighbors allocated
      have hC := coalesce_case1 hf1 hP hN
      have hC1 := congrArg Prod.fst hC
      simp only [] at hC1
      rw [hC1, tags_add_block, t1]
      rw [List.set_eq_take_append_cons_drop,
          if_pos (show i < (tags h).length by omega)]
      exact noAdjTags_splice (tags h) i 1 (getBlk h.blocks i).size
        (by omega) hcons (hprevOr hP) (hnextTrue hN)
    · -- Case 2: next block free, previous allocated
      have hi1 : ¬ i + 1 = (set_free h a).blocks.length := by
        intro hc
        rw [if_pos hc] at hN
        exact hN rfl
      have hNf : (getBlk (set_free h a).blocks (i + 1)).alloc = false := by
        rw [if_neg hi1] at hN
        cases hb : (getBlk (set_free h a).blocks (i + 1)).alloc
        · rfl
        · exact absurd hb hN
      have hC := coalesce_case2 hf1 hP hi1 hNf
      have hC1 := congrArg Prod.fst hC
      simp only [] at hC1
      rw [hC1]
      show noAdjTags (tags (add_block _ a))
      rw [tags_add_block]
      show noAdjTags ((splice (delete_block (set_free h a)
        (a + (getBlk (set_free h a).blocks i).size)).blocks i
        [⟨((getBlk (set_free h a).blocks i).size
            + (getBlk (set_free h a).blocks (i + 1)).size) % 2 ^ 32,
          false, (getBlk (set_free h a).blocks (i + 1)).prevF,
          (getBlk (set_free h a).blocks i).nextF⟩] 2).map tagOf)
      rw [tags_splice]
      have tdel : (delete_block (set_free h a)
          (a + (getBlk (set_free h a).blocks i).size)).blocks.map tagOf
          = (tags h).set i ((getBlk h.blocks i).size, false) := by
        have := tags_delete_block (set_free h a)
          (a + (getBlk (set_free h a).blocks i).size)
        unfold tags at this
        rw [this]
        exact t1
      rw [tdel, set_take_le _ le_rfl, set_drop_lt _ (by omega)]
      have hfree1 : (tags h)[i + 1]? = some
          ((getBlk (set_free h a).blocks (i + 1)).size, false) := by
        rw [hbridge (i + 1) (by omega) (by omega), hNf]
      refine noAdjTags_splice (tags h) i 2 _ (by omega) hcons (hprevOr hP) ?_
      intro q hq
      have hpair := hcons (i + 1)
        ((getBlk (set_free h a).blocks (i + 1)).size, false) q hfree1 hq
      rcases hpair with hb | hb
      · exact absurd hb (by simp)
      · exact hb
  · -- previous block free
    have hi0 : ¬ i = 0 := by
      intro hc
      rw [if_pos hc] at hP
      exact hP rfl
    have hPf : (getBlk (set_free h a).blocks (i - 1)).alloc = false := by
      rw [if_neg hi0] at hP
      cases hb : (getBlk (set_free h a).blocks (i - 1)).alloc
      · rfl
      · exact absurd hb hP
    have hfreeP : (tags h)[i - 1]? = some
        ((getBlk (set_free h a).blocks (i - 1)).size, false) := by
      rw [hbridge (i - 1) (by omega) (by omega), hPf]
    have hprev3 : (i - 1) = 0 ∨
        ∀ p, (tags h)[i - 1 - 1]? = some p → p.2 = true := by
      by_cases hi10 : i - 1 = 0
      · exact Or.inl hi10
      · right
        intro p hp
        have hpair := hcons (i - 1 - 1) p
          ((getBlk (set_free h a).blocks (i - 1)).size, false) hp
          (by rw [show i - 1 - 1 + 1 = i - 1 by omega]; exact hfreeP)
        rcases hpair with hb | hb
        · exact hb
        · exact absurd hb (by simp)
    by_cases hN : (if i + 1 = (set_free h a).blocks.length
        then (⟨0, true, none, none⟩ : Block)
        else getBlk (set_free h a).blocks (i + 1)).alloc = true
    · -- Case 3: merge with the previous block only
      have hC := coalesce_case3 hf1 hi0 hPf hN
      have hC1 := congrArg Prod.fst hC
      simp only [] at hC1
      rw [hC1]
      show noAdjTags (tags (add_block _
        (a - (getBlk (set_free h a).blocks (i - 1)).size)))
      rw [tags_add_block]
      show noAdjTags ((splice (delete_block (set_free h a)
        (a - (getBlk (set_free h a).blocks (i - 1)).size)).blocks (i - 1)
        [⟨((getBlk (set_free h a).blocks (i - 1)).size
            + (getBlk (set_free h a).blocks i).size) % 2 ^ 32,
          false, (getBlk (set_free h a).blocks i).prevF,
          (getBlk (set_free h a).blocks (i - 1)).nextF⟩] 2).map tagOf)
      rw [tags_splice]
      have tdel : (delete_block (set_free h a)
          (a - (getBlk (set_free h a).blocks (i - 1)).size)).blocks.map tagOf
          = (tags h).set i ((getBlk h.blocks i).size, false) := by
        have := tags_delete_block (set_free h a)
          (a - (getBlk (set_free h a).blocks (i - 1)).size)
        unfold tags at this
        rw [this]
        exact t1
      rw [tdel, set_take_le _ (Nat.sub_le i 1), set_drop_lt _ (by omega)]
      exact noAdjTags_splice (tags h) (i - 1) 2 _ (by omega) hcons hprev3
        (by rw [show i - 1 + 2 = i + 1 by omega]; exact hnextTrue hN)
    · -- Case 4: merge with both neighbors
      have hi1 : ¬ i + 1 = (set_free h a).blocks.length := by
        intro hc
        rw [if_pos hc] at hN
        exact hN rfl
      have hNf : (getBlk (set_free h a).blocks (i + 1)).alloc = false := by
        rw [if_neg hi1] at hN
        cases hb : (getBlk (set_free h a).blocks (i + 1)).alloc
        · rfl
        · exact absurd hb hN
      have hfree1 : (tags h)[i + 1]? = some
          ((getBlk (set_free h a).blocks (i + 1)).size, false) := by
        rw [hbridge (i + 1) (by omega) (by omega), hNf]
      have hC := coalesce_case4 hf1 hi0 hPf hi1 hNf
      have hC1 := congrArg Prod.fst hC
      simp only [] at hC1
      rw [hC1]
      show noAdjTags (tags (add_block _
        (a - (getBlk (set_free h a).blocks (i - 1)).size)))
      rw [tags_add_block]
      show noAdjTags ((splice (delete_block (delete_block (set_free h a)
        (a + (getBlk (set_free h a).blocks i).size))
        (a - (getBlk (set_free h a).blocks (i - 1)).size)).blocks (i - 1)
        [⟨((getBlk (set_free h a).blocks i).size
            + (getBlk (set_free h a).blocks (i - 1)).size
            + (getBlk (set_free h a).blocks (i + 1)).size) % 2 ^ 32,
          false, (getBlk (set_free h a).blocks (i + 1)).prevF,
          (getBlk (set_free h a).blocks (i - 1)).nextF⟩] 3).map tagOf)
      rw [tags_splice]
      have tdel : (delete_block (delete_block (set_free h a)
          (a + (getBlk (set_free h a).blocks i).size))
          (a - (getBlk (set_free h a).blocks (i - 1)).size)).blocks.map tagOf
          = (tags h).set i ((getBlk h.blocks i).size, false) := by
        have t3 := tags_delete_block (delete_block (set_free h a)
          (a + (getBlk (set_free h a).blocks i).size))
          (a - (getBlk (set_free h a).blocks (i - 1)).size)
        have t2 := tags_delete_block (set_free h a)
          (a + (getBlk (set_free h a).blocks i).size)
        unfold tags at t3 t2
        rw [t3, t2]
        exact t1
      rw [tdel, set_take_le _ (Nat.sub_le i 1), set_drop_lt _ (by omega)]
      refine noAdjTags_splice (tags h) (i - 1) 3 _ (by omega) hcons hprev3 ?_
      rw [show i - 1 + 3 = i + 2 by omega]
      intro q hq
      have hpair := hcons (i + 1)
        ((getBlk (set_free h a).blocks (i + 1)).size, false) q hfree1 hq
      rcases hpair with hb | hb
      · exact absurd hb (by simp)
      · exact hb

end MMSeg

namespace MMSeg

theorem noAdjTags_three (x0 x1 x2 : Nat × Bool)
    (h01 : x0.2 = true ∨ x1.2 = true) (h12 : x1.2 = true ∨ x2.2 = true) :
    noAdjTags [x0, x1, x2] := by
  intro i p q hp hq
  match i with
  | 0 =>
      simp at hp hq
      rw [← hp, ← hq]
      exact h01
  | 1 =>
      simp at hp hq
      rw [← hp, ← hq]
      exact h12
  | n + 2 =>
      rw [List.getElem?_eq_none (by simp)] at hq
      exact Option.noConfusion hq

/-- Freeing the allocated middle block of `c2Heap` (free | allocated |
allocated) leaves no two adjacent free blocks, instantiating C3. -/
theorem c3_eager_coalescing_witness :
    noAdjTags (tags (free_model c2Heap 48)) :=
  c3_eager_coalescing c2Heap 48 (i := 1) rfl rfl (by decide)
    (noAdjTags_three _ _ _ (by decide) (by decide))

end MMSeg

namespace MMSeg

/-- Every size in the list is a multiple of the 8-byte alignment unit
(`DSIZE`): the block-size part of the alignment invariant of C9. -/
def alignedL (bs : List Block) : Prop := ∀ s ∈ sizesOf bs, s % 8 = 0

theorem alignedL_of_sizes {bs bs2 : List Block}
    (e : sizesOf bs2 = sizesOf bs) (hal : alignedL bs) : alignedL bs2 := by
  intro s hs
  rw [e] at hs
  exact hal s hs

theorem sum8 (l : List Nat) (h : ∀ s ∈ l, s % 8 = 0) : l.sum % 8 = 0 := by
  induction l with
  | nil => simp
  | cons x xs ih =>
      have hx := h x (by simp)
      have hxs := ih (fun s hs => h s (by simp [hs]))
      simp only [List.sum_cons]
      omega

theorem sumSizes8 {bs : List Block} (hal : alignedL bs) :
    sumSizes bs % 8 = 0 :=
  sum8 _ hal

theorem alignedL_take {bs : List Block} (i : Nat) (hal : alignedL bs) :
    alignedL (bs.take i) := by
  intro s hs
  obtain ⟨b, hb, rfl⟩ := List.mem_map.mp hs
  exact hal b.size (List.mem_map.mpr ⟨b, List.take_subset _ _ hb, rfl⟩)

theorem alignedL_drop {bs : List Block} (i : Nat) (hal : alignedL bs) :
    alignedL (bs.drop i) := by
  intro s hs
  obtain ⟨b, hb, rfl⟩ := List.mem_map.mp hs
  exact hal b.size (List.mem_map.mpr ⟨b, List.drop_subset _ _ hb, rfl⟩)

theorem alignedL_append {xs ys : List Block} (hx : alignedL xs)
    (hy : alignedL ys) : alignedL (xs ++ ys) := by
  intro s hs
  rw [sizesOf, List.map_append, List.mem_append] at hs
  cases hs with
  | inl hsx => exact hx s hsx
  | inr hsy => exact hy s hsy

theorem splice8 {bs repl : List Block} (i k : Nat)
    (hal : alignedL bs) (hrepl : alignedL repl) :
    alignedL (splice bs i repl k) := by
  unfold splice
  exact alignedL_append (alignedL_append (alignedL_take i hal) hrepl)
    (alignedL_drop (i + k) hal)

theorem getBlk8 {bs : List Block} (i : Nat) (hal : alignedL bs) :
    (getBlk bs i).size % 8 = 0 := by
  by_cases hlt : i < bs.length
  · have hgm : getBlk bs i ∈ bs := List.getElem?_mem (getElem?_getBlk hlt)
    exact hal _ (List.mem_map.mpr ⟨_, hgm, rfl⟩)
  · unfold getBlk
    rw [List.getD_eq_default _ _ (Nat.le_of_not_lt hlt)]
    rfl

theorem mod32_8 {x : Nat} (hx : x % 8 = 0) : x % 2 ^ 32 % 8 = 0 := by
  rw [Nat.mod_mod_of_dvd x (by norm_num : (8 : Nat) ∣ 2 ^ 32)]
  exact hx

theorem sub8 {a b : Nat} (ha : a % 8 = 0) (hb : b % 8 = 0) :
    (a - b) % 8 = 0 := by
  omega

theorem addr8 {bs : List Block} {c a i : Nat} (hal : alignedL bs)
    (hc : c % 8 = 0) (hf : findIdx bs c a = some i) : a % 8 = 0 := by
  have he := findIdx_addr hf
  have hs := sumSizes8 (alignedL_take i hal)
  omega

theorem spaceLeft8 {h : Heap} (hal : alignedL h.blocks) :
    spaceLeft h % 8 = 0 := by
  unfold spaceLeft
  cases hl : h.blocks.getLast? with
  | none => rfl
  | some b =>
      have hmem : b ∈ h.blocks := by
        have hd : h.blocks.dropLast ++ [b] = h.blocks :=
          List.dropLast_append_getLast? b hl
        rw [← hd]
        simp
      by_cases hb : b.alloc = true
      · simp [hb]
      · simp only [Bool.eq_false_iff.mpr hb, if_false]
        exact hal b.size (List.mem_map.mpr ⟨b, hmem, rfl⟩)

theorem usub8 {a b : Nat} (ha : a % 8 = 0) (hb : b % 8 = 0) :
    usub64 a b % 8 = 0 := by
  unfold usub64
  have e64 : (2 : Nat) ^ 64 = 18446744073709551616 := by norm_num
  rw [e64]
  omega

theorem align_size8 (size : Nat) : align_size size % 8 = 0 := by
  unfold align_size
  by_cases hc : size ≤ DSIZE
  · rw [if_pos hc]
    rfl
  · rw [if_neg hc]
    simp only [DSIZE]
    omega

end MMSeg

namespace MMSeg

theorem split8 (h : Heap) (bp asize : Nat) (hal : alignedL h.blocks)
    (ha : asize % 8 = 0) : alignedL (split h bp asize).1.blocks := by
  unfold split
  rcases hf : findIdx h.blocks BASE bp with _ | i
  · exact hal
  · by_cases hc : asize + MIN_SIZE ≤ (getBlk h.blocks i).size
    · simp only [hc, if_true]
      apply alignedL_of_sizes (sizesOf_eq_of_tags (tags_add_block _ _))
      apply splice8
      · exact alignedL_of_sizes (sizesOf_eq_of_tags (tags_delete_block _ _)) hal
      · intro s hs
        simp only [sizesOf, List.map_cons, List.map_nil, List.mem_cons,
          List.not_mem_nil, or_false] at hs
        rcases hs with rfl | rfl
        · exact mod32_8 ha
        · exact mod32_8 (sub8 (getBlk8 i hal) ha)
    · simp only [hc, if_false]
      exact alignedL_of_sizes (sizesOf_eq_of_tags (tags_delete_block _ _)) hal

theorem coalesce8 (h : Heap) (bp : Nat) (hal : alignedL h.blocks) :
    alignedL (coalesce h bp).1.blocks ∧
      ((coalesce h bp).2 = bp ∨ (coalesce h bp).2 % 8 = 0) := by
  cases hf : findIdx h.blocks BASE bp with
  | none =>
      have he : coalesce h bp = (h, bp) := by
        unfold coalesce
        rw [hf]
      rw [he]
      exact ⟨hal, Or.inl rfl⟩
  | some i =>
      by_cases hprev : (if i = 0 then (⟨16, true, none, none⟩ : Block)
          else getBlk h.blocks (i - 1)).alloc = true
      · by_cases hnext : (if i + 1 = h.blocks.length
            then (⟨0, true, none, none⟩ : Block)
            else getBlk h.blocks (i + 1)).alloc = true
        · rw [coalesce_case1 hf hprev hnext]
          exact ⟨alignedL_of_sizes (sizesOf_eq_of_tags (tags_add_block _ _))
            hal, Or.inl rfl⟩
        · have hi1 : ¬ i + 1 = h.blocks.length := by
            intro he
            rw [if_pos he] at hnext
            exact hnext rfl
          have hnext2 : (getBlk h.blocks (i + 1)).alloc = false := by
            rw [if_neg hi1] at hnext
            exact Bool.eq_false_iff.mpr hnext
          rw [coalesce_case2 hf hprev hi1 hnext2]
          refine ⟨?_, Or.inl rfl⟩
          apply alignedL_of_sizes (sizesOf_eq_of_tags (tags_add_block _ _))
          apply splice8
          · exact alignedL_of_sizes (sizesOf_eq_of_tags
              (tags_delete_block _ _)) hal
          · intro s hs
            simp only [sizesOf, List.map_cons, List.map_nil, List.mem_cons,
              List.not_mem_nil, or_false] at hs
            rw [hs]
            refine mod32_8 ?_
            have h1 := getBlk8 i hal
            have h2 := getBlk8 (i + 1) hal
            omega
      · have hi0 : ¬ i = 0 := by
          intro he
          rw [if_pos he] at hprev
          exact hprev rfl
        have hprev2 : (getBlk h.blocks (i - 1)).alloc = false := by
          rw [if_neg hi0] at hprev
          exact Bool.eq_false_iff.mpr hprev
        have hbp8 : bp % 8 = 0 := addr8 hal (by decide) hf
        have hp8 : (getBlk h.blocks (i - 1)).size % 8 = 0 :=
          getBlk8 (i - 1) hal
        by_cases hnext : (if i + 1 = h.blocks.length
            then (⟨0, true, none, none⟩ : Block)
            else getBlk h.blocks (i + 1)).alloc = true
        · rw [coalesce_case3 hf hi0 hprev2 hnext]
          refine ⟨?_, Or.inr (sub8 hbp8 hp8)⟩
          apply alignedL_of_sizes (sizesOf_eq_of_tags (tags_add_block _ _))
          apply splice8
          · exact alignedL_of_sizes (sizesOf_eq_of_tags
              (tags_delete_block _ _)) hal
          · intro s hs
            simp only [sizesOf, List.map_cons, List.map_nil, List.mem_cons,
              List.not_mem_nil, or_false] at hs
            rw [hs]
            refine mod32_8 ?_
            have h1 := getBlk8 i hal
            omega
        · have hi1 : ¬ i + 1 = h.blocks.length := by
            intro he
            rw [if_pos he] at hnext
            exact hnext rfl
          have hnext2 : (getBlk h.blocks (i + 1)).alloc = false := by
            rw [if_neg hi1] at hnext
            exact Bool.eq_false_iff.mpr hnext
          rw [coalesce_case4 hf hi0 hprev2 hi1 hnext2]
          refine ⟨?_, Or.inr (sub8 hbp8 hp8)⟩
          apply alignedL_of_sizes (sizesOf_eq_of_tags (tags_add_block _ _))
          apply splice8
          · exact alignedL_of_sizes (sizesOf_eq_of_tags (tags_delete_block _ _))
              (alignedL_of_sizes (sizesOf_eq_of_tags
                (tags_delete_block _ _)) hal)
          · intro s hs
            simp only [sizesOf, List.map_cons, List.map_nil, List.mem_cons,
              List.not_mem_nil, or_false] at hs
            rw [hs]
            refine mod32_8 ?_
            have h1 := getBlk8 i hal
            have h2 := getBlk8 (i + 1) hal
            omega

end MMSeg

namespace MMSeg

theorem extend8 (h : Heap) (asize : Nat) (ok : Bool) {p : Heap × Nat}
    (hal : alignedL h.blocks) (ha : asize % 8 = 0)
    (hext : extend_heap h asize ok = some p) :
    alignedL p.1.blocks ∧ p.2 % 8 = 0 := by
  cases ok with
  | false =>
      rw [extend_heap_false] at hext
      exact Option.noConfusion hext
  | true =>
      rw [extend_heap_true] at hext
      have hp := Option.some_inj.mp hext
      rw [← hp]
      have hsl := spaceLeft8 hal
      have hsz : (if usub64 asize (spaceLeft h) < CHUNKSIZE then CHUNKSIZE
          else usub64 asize (spaceLeft h)) % 8 = 0 := by
        by_cases hc : usub64 asize (spaceLeft h) < CHUNKSIZE
        · rw [if_pos hc]
          rfl
        · rw [if_neg hc]
          exact usub8 ha hsl
      have hal1 : alignedL (h.blocks ++
          [⟨(if usub64 asize (spaceLeft h) < CHUNKSIZE then CHUNKSIZE
             else usub64 asize (spaceLeft h)) % 2 ^ 32, false, none, none⟩]) :=
        alignedL_append hal (by
          intro s hs
          simp only [sizesOf, List.map_cons, List.map_nil, List.mem_cons,
            List.not_mem_nil, or_false] at hs
          rw [hs]
          exact mod32_8 hsz)
      have hbp8 : (BASE + sumSizes h.blocks) % 8 = 0 := by
        have hss := sumSizes8 hal
        have hB : BASE % 8 = 0 := by decide
        omega
      obtain ⟨hc1, hc2⟩ := coalesce8
        { blocks := h.blocks ++
            [⟨(if usub64 asize (spaceLeft h) < CHUNKSIZE then CHUNKSIZE
               else usub64 asize (spaceLeft h)) % 2 ^ 32, false, none, none⟩],
          freeLists := h.freeLists,
          eptr := h.eptr + (if usub64 asize (spaceLeft h) < CHUNKSIZE
            then CHUNKSIZE else usub64 asize (spaceLeft h)) % 2 ^ 32,
          hi := h.hi + (if usub64 asize (spaceLeft h) < CHUNKSIZE
            then CHUNKSIZE else usub64 asize (spaceLeft h)) }
        (BASE + sumSizes h.blocks) hal1
      constructor
      · exact split8 _ _ _ hc1 ha
      · rw [split_snd]
        rcases hc2 with he | h8
        · rw [he]
          exact hbp8
        · exact h8

theorem searchLoop8 (h : Heap) (asize fuel : Nat) (ha : asize % 8 = 0)
    (hal : alignedL h.blocks) (left : Nat) :
    ∀ (list : Nat) (bp : Option Nat) (reads : List Nat),
      alignedL (searchLoop h asize fuel left list bp reads).2.1.blocks ∧
      ∀ r, (searchLoop h asize fuel left list bp reads).1 = some r →
        r % 8 = 0 := by
  induction left with
  | zero =>
      intro list bp reads
      exact ⟨hal, fun r hr => Option.noConfusion hr⟩
  | succ left ih =>
      intro list bp reads
      cases hinner : searchInner h asize bp fuel with
      | some fnd =>
          simp only [searchLoop, hinner]
          obtain ⟨i, hfi, _⟩ := searchInner_spec h asize fuel bp hinner
          refine ⟨split8 _ _ _ hal ha, ?_⟩
          intro r hr
          rw [split_snd] at hr
          rw [← Option.some_inj.mp hr]
          exact addr8 hal (by decide) hfi
      | none =>
          simp only [searchLoop, hinner]
          exact ih (list + 1) _ (reads ++ [list])

theorem malloc8 (h : Heap) (size : Nat) (ok : Bool)
    (hal : alignedL h.blocks) :
    alignedL (malloc_model h size ok).2.blocks ∧
      ∀ a, (malloc_model h size ok).1 = some a → a % 8 = 0 := by
  unfold malloc_model
  by_cases h0 : size = 0
  · rw [if_pos h0]
    exact ⟨hal, fun a ha => Option.noConfusion ha⟩
  · rw [if_neg h0]
    have ha8 := align_size8 size
    have hsl : alignedL
        (search_list h (align_size size) (h.blocks.length + 1)).2.1.blocks ∧
        ∀ r, (search_list h (align_size size) (h.blocks.length + 1)).1
          = some r → r % 8 = 0 :=
      searchLoop8 h (align_size size) (h.blocks.length + 1) ha8 hal
        (NUM_LISTS + 1 - get_list (align_size size))
        (get_list (align_size size))
        (h.freeLists.getD (get_list (align_size size)) none)
        [get_list (align_size size)]
    cases hsearch : (search_list h (align_size size) (h.blocks.length + 1)).1
      with
    | some bp =>
        simp only [hsearch]
        refine ⟨alignedL_of_sizes (sizesOf_set_alloc _ _) hsl.1, ?_⟩
        intro a ha
        rw [← Option.some_inj.mp ha]
        exact hsl.2 bp hsearch
    | none =>
        simp only [hsearch]
        cases hext : extend_heap h (align_size size) ok with
        | none =>
            simp only [hext]
            exact ⟨hal, fun a ha => Option.noConfusion ha⟩
        | some p =>
            simp only [hext]
            obtain ⟨h1, h2⟩ := extend8 h (align_size size) ok hal ha8 hext
            refine ⟨alignedL_of_sizes (sizesOf_set_alloc _ _) h1, ?_⟩
            intro a ha
            rw [← Option.some_inj.mp ha]
            exact h2

end MMSeg

namespace MMSeg

theorem free8 (h : Heap) (bp : Nat) (hal : alignedL h.blocks) :
    alignedL (free_model h bp).blocks := by
  unfold free_model
  by_cases h0 : bp = 0
  · rw [if_pos h0]
    exact hal
  · rw [if_neg h0]
    exact (coalesce8 _ bp (alignedL_of_sizes (sizesOf_set_free _ _) hal)).1

theorem calloc8 (h : Heap) (nmemb size : Nat) (ok : Bool)
    (hal : alignedL h.blocks) :
    alignedL (calloc_model h nmemb size ok).2.1.blocks ∧
      ∀ a, (calloc_model h nmemb size ok).1 = some a → a % 8 = 0 := by
  obtain ⟨h1, h2⟩ := malloc8 h (nmemb * size % 2 ^ 64) ok hal
  exact ⟨h1, h2⟩

theorem realloc8 (h : Heap) (ptr size : Nat) (ok : Bool)
    (hal : alignedL h.blocks) :
    alignedL (realloc_model h ptr size ok).2.1.blocks ∧
      ∀ a, (realloc_model h ptr size ok).1 = some a → a % 8 = 0 := by
  unfold realloc_model
  by_cases h0 : size = 0
  · rw [if_pos h0]
    exact ⟨free8 h ptr hal, fun a ha => Option.noConfusion ha⟩
  · rw [if_neg h0]
    by_cases hp : ptr = 0
    · rw [if_pos hp]
      obtain ⟨h1, h2⟩ := malloc8 h size ok hal
      exact ⟨h1, h2⟩
    · rw [if_neg hp]
      cases hf : findIdx h.blocks BASE ptr with
      | none =>
          simp only [hf]
          exact ⟨hal, fun a ha => Option.noConfusion ha⟩
      | some i =>
          simp only [hf]
          have hptr8 : ptr % 8 = 0 := addr8 hal (by decide) hf
          by_cases hle : align_size size ≤ (getBlk h.blocks i).size
          · simp only [hle, if_true]
            have hal1 : alignedL (add_block (set_free h ptr) ptr).blocks :=
              alignedL_of_sizes (sizesOf_eq_of_tags (tags_add_block _ _))
                (alignedL_of_sizes (sizesOf_set_free _ _) hal)
            have hal2 := split8 _ ptr (align_size size) hal1 (align_size8 size)
            refine ⟨alignedL_of_sizes (sizesOf_set_alloc _ _) hal2, ?_⟩
            intro a ha
            rw [split_snd] at ha
            rw [← Option.some_inj.mp ha]
            exact hptr8
          · simp only [hle, if_false]
            by_cases hc : (¬(if i = 0 then (⟨16, true, none, none⟩ : Block)
                  else getBlk h.blocks (i - 1)).alloc ∧
                align_size size - (getBlk h.blocks i).size ≤
                  (if i = 0 then (⟨16, true, none, none⟩ : Block)
                   else getBlk h.blocks (i - 1)).size) ∨
              (¬(if i + 1 = h.blocks.length
                    then (⟨0, true, none, none⟩ : Block)
                    else getBlk h.blocks (i + 1)).alloc ∧
                align_size size - (getBlk h.blocks i).size ≤
                  (if i + 1 = h.blocks.length
                   then (⟨0, true, none, none⟩ : Block)
                   else getBlk h.blocks (i + 1)).size) ∨
              (¬(if i + 1 = h.blocks.length
                    then (⟨0, true, none, none⟩ : Block)
                    else getBlk h.blocks (i + 1)).alloc ∧
                ¬(if i = 0 then (⟨16, true, none, none⟩ : Block)
                   else getBlk h.blocks (i - 1)).alloc ∧
                align_size size - (getBlk h.blocks i).size ≤
                  (if i = 0 then (⟨16, true, none, none⟩ : Block)
                   else getBlk h.blocks (i - 1)).size +
                  (if i + 1 = h.blocks.length
                   then (⟨0, true, none, none⟩ : Block)
                   else getBlk h.blocks (i + 1)).size)
            · simp only [hc, if_true]
              obtain ⟨hco1, hco2⟩ := coalesce8 h ptr hal
              have hc28 : (coalesce h ptr).2 % 8 = 0 := by
                rcases hco2 with he | h8
                · rw [he]
                  exact hptr8
                · exact h8
              have hal2 := split8 (coalesce h ptr).1 (coalesce h ptr).2
                (align_size size) hco1 (align_size8 size)
              refine ⟨alignedL_of_sizes (sizesOf_set_alloc _ _) hal2, ?_⟩
              intro a ha
              rw [split_snd] at ha
              rw [← Option.some_inj.mp ha]
              exact hc28
            · simp only [hc, if_false]
              obtain ⟨h1, h2⟩ := malloc8 h (align_size size) ok hal
              cases hm : (malloc_model h (align_size size) ok).1 with
              | some np =>
                  simp only [hm]
                  refine ⟨free8 _ ptr h1, ?_⟩
                  intro a ha
                  rw [← Option.some_inj.mp ha]
                  exact h2 np hm
              | none =>
                  simp only [hm]
                  exact ⟨free8 _ ptr h1, fun a ha => Option.noConfusion ha⟩

end MMSeg

namespace MMSeg

theorem runOp8 (h : Heap) (op : Op) (hal : alignedL h.blocks) :
    alignedL (runOp h op).2.blocks ∧
      ∀ a, (runOp h op).1 = some a → a % 8 = 0 := by
  cases op with
  | malloc s ok => exact malloc8 h s ok hal
  | free a => exact ⟨free8 h a hal, fun a2 ha2 => Option.noConfusion ha2⟩
  | realloc a s ok => exact realloc8 h a s ok hal
  | calloc n s ok => exact calloc8 h n s ok hal

theorem runTrace8 (ops : List Op) : ∀ (h : Heap), alignedL h.blocks →
    ∀ a, some a ∈ (runTrace h ops).2 → a % 8 = 0 := by
  induction ops with
  | nil =>
      intro h hal a ha
      simp [runTrace] at ha
  | cons op ops ih =>
      intro h hal a ha
      simp only [runTrace, List.mem_cons] at ha
      obtain ⟨h1, h2⟩ := runOp8 h op hal
      cases ha with
      | inl he => exact h2 a he.symm
      | inr hm => exact ih (runOp h op).2 h1 a hm

/-- C9: starting from the successfully initialized heap, every non-null
address that any sequence of `allocate`, `free`, `reallocate` and
`zero_allocate` calls returns is a multiple of the 8-byte alignment unit:
the first block pointer sits at offset 24 and every size the allocator ever
stamps into a block (via `align_size`, the `CHUNKSIZE`-floored extension
amount, splitting and coalescing) is a multiple of 8, so every block
pointer — 24 plus a sum of block sizes — stays 8-aligned. -/
theorem c9_returned_addresses_aligned (ops : List Op) (a : Nat)
    (hmem : some a ∈ (runTrace initHeap ops).2) : a % 8 = 0 :=
  runTrace8 ops initHeap
    (fun s hs => absurd hs (List.not_mem_nil s)) a hmem

/-- Instantiation of C9: the first allocation of the session,
`allocate(8)`, returns address 24, which is a multiple of 8. -/
theorem c9_witness :
    some 24 ∈ (runTrace initHeap [Op.malloc 8 true]).2 ∧ 24 % 8 = 0 :=
  ⟨by decide, c9_returned_addresses_aligned [Op.malloc 8 true] 24 (by decide)⟩

end MMSeg
